import Mathlib

/-!
Verification of the bmark HTML bookmark import/export pipeline
(src/cmd/bmark-importer/bmark-importer.go).

Strings are modelled as `List Char`.  The Go regular expressions used by the
parser are restricted patterns; each one is embedded as a dedicated scanning
function with Go's leftmost-first (lazy/greedy backtracking) semantics:

  reAnchor  (?i)<A\s+([^>]+)>(.*?)</A>     -> anchorAt / findAnchor
  reHref    HREF="([^"]+)"                 -> matchLit hrefLit
  reAddDate ADD_DATE="(\d+)"               -> matchLit addDateLit
  reLastMod LAST_MODIFIED="(\d+)"          -> matchLit lastModLit
  reTags    TAGS="([^"]+)"                 -> matchLit tagsLit
  reDesc    (?i)<DD>([^<]+)                -> descAt / findDesc

In Go's regexp dialect `.` does not match a newline, while character classes
such as `[^>]` do; `\s` is the ASCII class [\t\n\f\r ].  `strings.TrimSpace`
trims Unicode white space (the White_Space property).  Both predicates are
embedded separately below.

The SQLite store is modelled explicitly; every statement that touches the
database can fail, which is represented by a failure oracle (`Nat -> Bool`,
statement position within one candidate's processing -> does it error).
A transaction is modelled by working on a copy and committing at the end;
a failure inside a transaction returns `none` and the caller keeps the store
as it was when the transaction began (the deferred Rollback).
-/

namespace Bmark

/-! Character helpers -/

def quoteC : Char := Char.ofNat 34

def aposC : Char := Char.ofNat 39

/-- Go regexp class \s = [\t\n\f\r ]. -/
def isRegexSpace (c : Char) : Bool :=
  c == ' ' || c == '\t' || c == '\n' || c == '\x0d' || c == '\x0c'

/-- Go unicode.IsSpace (the Unicode White_Space property), used by
strings.TrimSpace. -/
def isGoSpace (c : Char) : Bool :=
  let n := c.toNat
  (decide (0x09 ≤ n) && decide (n ≤ 0x0D)) || n == 0x20 || n == 0x85 ||
    n == 0xA0 || n == 0x1680 ||
    (decide (0x2000 ≤ n) && decide (n ≤ 0x200A)) || n == 0x2028 ||
    n == 0x2029 || n == 0x202F || n == 0x205F || n == 0x3000

/-! Generic string (List Char) operations mirroring Go's strings package -/

def trimLeft (s : List Char) : List Char := s.dropWhile isGoSpace

def trimRight (s : List Char) : List Char := (s.reverse.dropWhile isGoSpace).reverse

/-- strings.TrimSpace -/
def trimSpace (s : List Char) : List Char := trimRight (trimLeft s)

/-- Does the second list start with the first one? -/
def startsL : List Char → List Char → Bool
  | [], _ => true
  | _ :: _, [] => false
  | c :: p, d :: s => c == d && startsL p s

/-- Does `s` contain `pat` as a contiguous sublist? -/
def containsSub (pat : List Char) : List Char → Bool
  | [] => startsL pat []
  | c :: s => startsL pat (c :: s) || containsSub pat s

/-- Fuel-based body of strings.Split on a separator substring; the fuel is
only a structural-recursion device, any fuel of at least the list's length
computes the function (splitOnSubF_fuel below). -/
def splitOnSubF (sep : List Char) : Nat → List Char → List (List Char)
  | _, [] => [[]]
  | 0, s => [s]
  | fuel + 1, c :: rest =>
    if sep ≠ [] ∧ startsL sep (c :: rest) = true then
      [] :: splitOnSubF sep fuel (rest.drop (sep.length - 1))
    else
      match splitOnSubF sep fuel rest with
      | [] => [[c]]
      | g :: gs => (c :: g) :: gs

/-- strings.Split on a non-empty separator substring (leftmost,
non-overlapping).  The importer only calls it with sep = "<DT>". -/
def splitOnSub (sep : List Char) (s : List Char) : List (List Char) :=
  splitOnSubF sep s.length s

/-- Fuel-based body of strings.ReplaceAll; same device as splitOnSubF. -/
def replaceAllF (pat rep : List Char) : Nat → List Char → List Char
  | _, [] => []
  | 0, s => s
  | fuel + 1, c :: rest =>
    if pat ≠ [] ∧ startsL pat (c :: rest) = true then
      rep ++ replaceAllF pat rep fuel (rest.drop (pat.length - 1))
    else
      c :: replaceAllF pat rep fuel rest

/-- strings.ReplaceAll with a non-empty pattern (leftmost, non-overlapping,
sequential single pass). -/
def replaceAll (pat rep : List Char) (s : List Char) : List Char :=
  replaceAllF pat rep s.length s

/-- strings.Split on a single comma. -/
def splitOnComma : List Char → List (List Char)
  | [] => [[]]
  | c :: rest =>
    if c == ',' then [] :: splitOnComma rest
    else
      match splitOnComma rest with
      | [] => [[c]]
      | g :: gs => (c :: g) :: gs

/-- Comma-join, as SQLite GROUP_CONCAT(tag, ',') produces. -/
def joinComma : List (List Char) → List Char
  | [] => []
  | [t] => t
  | t :: ts => t ++ ',' :: joinComma ts

/-! Decimal numbers -/

def digitsVal (ds : List Char) : Nat :=
  ds.foldl (fun a c => 10 * a + (c.toNat - 48)) 0

def int64Max : Nat := 9223372036854775807

/-- strconv.ParseInt(m, 10, 64) on a non-empty all-digit string (which is what
the regex capture \d+ guarantees): the value if it fits in int64, otherwise an
error (modelled as none). -/
def parseInt64 (ds : List Char) : Option Int :=
  if digitsVal ds ≤ int64Max then some (Int.ofNat (digitsVal ds)) else none

/-- Fuel-based decimal printer body; any fuel above the number computes it. -/
def natToDigitsF : Nat → Nat → List Char
  | 0, _ => []
  | fuel + 1, n =>
    if n < 10 then [Char.ofNat (48 + n)]
    else natToDigitsF fuel (n / 10) ++ [Char.ofNat (48 + n % 10)]

def natToDigits (n : Nat) : List Char := natToDigitsF (n + 1) n

/-- fmt %d for an int64. -/
def intToDec (i : Int) : List Char :=
  if i < 0 then '-' :: natToDigits i.natAbs else natToDigits i.toNat

/-! Embedded regular expressions -/

def hrefLit : List Char := "HREF=".data ++ [quoteC]

def addDateLit : List Char := "ADD_DATE=".data ++ [quoteC]

def lastModLit : List Char := "LAST_MODIFIED=".data ++ [quoteC]

def tagsLit : List Char := "TAGS=".data ++ [quoteC]

/-- Match, at the current position only, the pattern LIT(cls+)" — the shape of
the four attribute regexes (the literal includes the opening quote; the
capture is a non-empty run of `cls` characters; the closer is the quote).
Backtracking cannot produce a shorter run: a shorter run would have to be
followed by a quote, which the class excludes. -/
def matchLit (lit : List Char) (cls : Char → Bool) (s : List Char) : Option (List Char) :=
  if startsL lit s = true then
    let rest := s.drop lit.length
    let run := rest.takeWhile cls
    if run ≠ [] ∧ startsL [quoteC] (rest.drop run.length) = true then some run
    else none
  else none

/-- Leftmost match: try every start position from the left. -/
def scanFor {α : Type} (f : List Char → Option α) : List Char → Option α
  | [] => none
  | c :: rest => (f (c :: rest)).orElse (fun _ => scanFor f rest)

def findHref : List Char → Option (List Char) :=
  scanFor (matchLit hrefLit (fun c => !(c == quoteC)))

def findAddDate : List Char → Option (List Char) :=
  scanFor (matchLit addDateLit Char.isDigit)

def findLastMod : List Char → Option (List Char) :=
  scanFor (matchLit lastModLit Char.isDigit)

def findTags : List Char → Option (List Char) :=
  scanFor (matchLit tagsLit (fun c => !(c == quoteC)))

/-- Is `</A>` (case-insensitive A) at the front? -/
def isCloseAnchor (s : List Char) : Bool :=
  match s with
  | '<' :: '/' :: c :: '>' :: _ => c == 'A' || c == 'a'
  | _ => false

/-- The lazy part `(.*?)</A>`: the shortest newline-free text up to a closing
anchor tag; none if no closing tag is reachable. -/
def innerUpTo : List Char → Option (List Char)
  | [] => none
  | c :: rest =>
    if isCloseAnchor (c :: rest) = true then some []
    else if c == '\n' then none
    else (innerUpTo rest).map (fun u => c :: u)

/-- Match `(?i)<A\s+([^>]+)>(.*?)</A>` at the current position only.
After `<A`, the region up to the first `>` decomposes as \s+ then [^>]+; the
greedy \s+ takes the maximal whitespace run, backing off one character when
that would leave [^>]+ empty. -/
def anchorAt (s : List Char) : Option (List Char × List Char) :=
  match s with
  | '<' :: c :: rest =>
    if c == 'A' || c == 'a' then
      let R := rest.takeWhile (fun d => !(d == '>'))
      match rest.drop R.length with
      | '>' :: tail =>
        let w := (R.takeWhile isRegexSpace).length
        if w == 0 then none
        else
          let k := if w == R.length then R.length - 1 else w
          if k == 0 then none
          else (innerUpTo tail).map (fun inner => (R.drop k, inner))
      | _ => none
    else none
  | _ => none

def findAnchor : List Char → Option (List Char × List Char) := scanFor anchorAt

/-- Match `(?i)<DD>([^<]+)` at the current position only. -/
def descAt (s : List Char) : Option (List Char) :=
  match s with
  | '<' :: c1 :: c2 :: '>' :: rest =>
    if (c1 == 'D' || c1 == 'd') && (c2 == 'D' || c2 == 'd') then
      let run := rest.takeWhile (fun d => !(d == '<'))
      if run ≠ [] then some run else none
    else none
  | _ => none

def findDesc : List Char → Option (List Char) := scanFor descAt

/-! The Go functions -/

/-- htmlUnescape: five sequential strings.ReplaceAll passes. -/
def htmlUnescape (s : List Char) : List Char :=
  let s1 := replaceAll ("&amp;".data) ("&".data) s
  let s2 := replaceAll ("&lt;".data) ("<".data) s1
  let s3 := replaceAll ("&gt;".data) (">".data) s2
  let s4 := replaceAll ("&quot;".data) [quoteC] s3
  replaceAll ("&#39;".data) [aposC] s4

/-- Go html.EscapeString on one character. -/
def escapeChar (c : Char) : List Char :=
  if c == '&' then "&amp;".data
  else if c == aposC then "&#39;".data
  else if c == '<' then "&lt;".data
  else if c == '>' then "&gt;".data
  else if c == quoteC then "&#34;".data
  else [c]

/-- Go html.EscapeString. -/
def escapeString : List Char → List Char
  | [] => []
  | c :: s => escapeChar c ++ escapeString s

structure Job where
  URI : List Char
  Title : List Char
  Note : List Char
  CreatedAt : Int
  UpdatedAt : Int
  Tags : List (List Char)
deriving Repr, DecidableEq

def extractHref (attrStr : List Char) : List Char :=
  match findHref attrStr with
  | some m => m
  | none => []

def extractTimestamp (find : List Char → Option (List Char)) (attrStr : List Char)
    (defaultValue : Int) : Int :=
  match find attrStr with
  | some ds =>
    match parseInt64 ds with
    | some v => v
    | none => defaultValue
  | none => defaultValue

def extractTags (attrStr : List Char) : List (List Char) :=
  match findTags attrStr with
  | some m =>
    if m ≠ [] then ((splitOnComma m).map trimSpace).filter (fun t => !t.isEmpty)
    else []
  | none => []

def extractDescription (block : List Char) : List Char :=
  match findDesc block with
  | some m => htmlUnescape (trimSpace m)
  | none => []

/-- The body of the parseBlocks loop for one block: the candidate it sends to
the jobs channel, if any. -/
def parseBlock (now : Int) (block0 : List Char) : Option Job :=
  let block := trimSpace block0
  if block = [] then none
  else
    match findAnchor block with
    | none => none
    | some (attrStr, inner0) =>
      let title := htmlUnescape (trimSpace inner0)
      let uri := extractHref attrStr
      if uri = [] then none
      else
        let createdAt := extractTimestamp findAddDate attrStr now
        let updatedAt := extractTimestamp findLastMod attrStr createdAt
        let tags := extractTags attrStr
        let note := extractDescription block
        some { URI := uri, Title := title, Note := note, CreatedAt := createdAt,
               UpdatedAt := updatedAt, Tags := tags }

/-- parseBlocks: the clock is read once (`now`), before any block is
processed; every block then goes through `parseBlock` with that same value. -/
def parseBlocks (now : Int) (blocks : List (List Char)) : List Job :=
  blocks.filterMap (parseBlock now)

def dtSep : List Char := "<DT>".data

/-! The SQLite store.

Schema (initializeDatabase): bookmarks(id INTEGER PRIMARY KEY, url UNIQUE,
title, note, created_at, updated_at), tags(id INTEGER PRIMARY KEY, tag
UNIQUE), bookmark_tags(bookmark_id, tag_id, PRIMARY KEY(bookmark_id, tag_id)).
Row ids are the SQLite rowids, handed out consecutively from 1. -/

structure BookmarkRow where
  id : Nat
  url : List Char
  title : List Char
  note : List Char
  createdAt : Int
  updatedAt : Int
deriving Repr, DecidableEq

structure Store where
  bookmarks : List BookmarkRow
  tags : List (Nat × List Char)
  links : List (Nat × Nat)
  nextBookmarkId : Nat
  nextTagId : Nat
deriving Repr, DecidableEq

def emptyStore : Store := ⟨[], [], [], 1, 1⟩

def lookupUrl (st : Store) (u : List Char) : Option BookmarkRow :=
  st.bookmarks.find? (fun b => b.url == u)

def lookupTagId (tags : List (Nat × List Char)) (t : List Char) : Option Nat :=
  (tags.find? (fun p => p.2 == t)).map (fun p => p.1)

def lookupTagText (tags : List (Nat × List Char)) (i : Nat) : Option (List Char) :=
  (tags.find? (fun p => p.1 == i)).map (fun p => p.2)

/-- insertBookmark: one transaction.  Failure positions within this
candidate: 0 = db.Begin, 1 = Exec INSERT OR IGNORE, 2 = QueryRow for the
existing id (only on the ignored branch), 3 = tx.Commit.  On any failure the
deferred Rollback leaves the store untouched and the function errors
(`none`). -/
def insertBookmark (fail : Nat → Bool) (st : Store) (uri title note : List Char)
    (createdAt updatedAt : Int) : Option (Store × Nat) :=
  if fail 0 then none
  else if fail 1 then none
  else
    match lookupUrl st uri with
    | none =>
      if fail 3 then none
      else some ({ st with
                    bookmarks :=
                      st.bookmarks ++
                        [⟨st.nextBookmarkId, uri, title, note, createdAt, updatedAt⟩],
                    nextBookmarkId := st.nextBookmarkId + 1 }, st.nextBookmarkId)
    | some r =>
      if fail 2 then none
      else if fail 3 then none
      else some (st, r.id)

/-- The part of the store a tags transaction works on. -/
structure TagTx where
  tags : List (Nat × List Char)
  links : List (Nat × Nat)
  nextTagId : Nat
deriving Repr, DecidableEq

/-- INSERT OR IGNORE INTO bookmark_tags: the pair is a primary key, so an
existing pair is ignored. -/
def addLink (tx : TagTx) (bid tid : Nat) : TagTx :=
  if (bid, tid) ∈ tx.links then tx else { tx with links := tx.links ++ [(bid, tid)] }

/-- The per-tag loop of insertTags.  `k` is the failure position of the next
database statement; positions advance by one per executed statement.  The
tagID == 0 re-select branch of the Go code is unreachable here because fresh
rowids start at 1. -/
def insertTagsLoop (fail : Nat → Bool) (bid : Nat) :
    List (List Char) → TagTx → Nat → Option (TagTx × Nat)
  | [], tx, k => some (tx, k)
  | t :: rest, tx, k =>
    if t = [] then insertTagsLoop fail bid rest tx k
    else if fail k then none
    else
      match lookupTagId tx.tags t with
      | some tid =>
        if fail (k + 1) then none
        else insertTagsLoop fail bid rest (addLink tx bid tid) (k + 2)
      | none =>
        if fail (k + 1) then none
        else
          let tid := tx.nextTagId
          let tx1 : TagTx := { tx with tags := tx.tags ++ [(tid, t)], nextTagId := tid + 1 }
          if fail (k + 2) then none
          else insertTagsLoop fail bid rest (addLink tx1 bid tid) (k + 3)

/-- insertTags: a second, separate transaction.  Position 4 = db.Begin,
positions from 5 = the statements of the loop, final position = tx.Commit.
On any failure the whole tags transaction rolls back (`none`). -/
def insertTags (fail : Nat → Bool) (st : Store) (bid : Nat)
    (tags : List (List Char)) : Option Store :=
  if fail 4 then none
  else
    match insertTagsLoop fail bid tags ⟨st.tags, st.links, st.nextTagId⟩ 5 with
    | none => none
    | some (tx, k) =>
      if fail k then none
      else some { st with tags := tx.tags, links := tx.links, nextTagId := tx.nextTagId }

/-- The worker loop body for one job: insertBookmark, then insertTags; an
error in either is sent to the results channel as that job's failure and the
worker continues with the next job.  Returns the store as left behind and the
job's reported outcome. -/
def processJob (fail : Nat → Bool) (st : Store) (j : Job) : Store × Bool :=
  match insertBookmark fail st j.URI j.Title j.Note j.CreatedAt j.UpdatedAt with
  | none => (st, false)
  | some (st1, bid) =>
    match insertTags fail st1 bid j.Tags with
    | none => (st1, false)
    | some st2 => (st2, true)

/-- The coordinator: all jobs are drained; job `i` runs with its own failure
oracle `fails i`.  db.SetMaxOpenConns(1) serialises the workers at the store,
so the jobs' transactions execute in sequence. -/
def runJobs (fails : Nat → Nat → Bool) : Store → Nat → List Job → Store × List Bool
  | st, _, [] => (st, [])
  | st, i, j :: rest =>
    let p := processJob (fails i) st j
    let q := runJobs fails p.1 (i + 1) rest
    (q.1, p.2 :: q.2)

def noFail : Nat → Bool := fun _ => false

def noFails : Nat → Nat → Bool := fun _ _ => false

/-- importBookmarks without the file I/O: split the content on "<DT>", parse,
and run every candidate.  Returns the final store and the per-candidate
outcomes collected from the results channel. -/
def importContent (fails : Nat → Nat → Bool) (now : Int) (st : Store)
    (content : List Char) : Store × List Bool :=
  runJobs fails st 0 (parseBlocks now (splitOnSub dtSep content))

/-- The success count importBookmarks prints. -/
def successCount (outs : List Bool) : Nat := (outs.filter id).length

/-! Export -/

/-- The labels of one entry, in link order, as GROUP_CONCAT aggregates them
(one aggregate order fixed by the model; the claims compare label sets). -/
def tagsOf (st : Store) (bid : Nat) : List (List Char) :=
  st.links.filterMap (fun l => if l.1 == bid then lookupTagText st.tags l.2 else none)

/-- The attribute text exportBookmarks prints for one row. -/
def exportAttr (st : Store) (b : BookmarkRow) : List Char :=
  let uriEsc := escapeString b.url
  let tagsEsc := escapeString (joinComma (tagsOf st b.id))
  "HREF=\"".data ++ uriEsc ++ "\" ADD_DATE=\"".data ++ intToDec b.createdAt ++
    "\" LAST_MODIFIED=\"".data ++ intToDec b.updatedAt ++ "\"".data ++
    (if tagsEsc ≠ [] then " TAGS=\"".data ++ tagsEsc ++ "\"".data else [])

/-- One exported entry: `<DT><A attrs>title</A>` then `<DD>note` when the
escaped note is non-empty, then the newline of Fprintln. -/
def exportEntry (st : Store) (b : BookmarkRow) : List Char :=
  let titleEsc := escapeString b.title
  let noteEsc := escapeString b.note
  "<DT><A ".data ++ exportAttr st b ++ ">".data ++ titleEsc ++ "</A>".data ++
    (if noteEsc ≠ [] then "<DD>".data ++ noteEsc else []) ++ ['\n']

def preambleDoc : List Char :=
  ("<!DOCTYPE NETSCAPE-Bookmark-file-1>\n\n<META HTTP-EQUIV=\"Content-Type\"" ++
    " CONTENT=\"text/html; charset=UTF-8\">\n<TITLE>Bookmarks</TITLE>\n" ++
    "<H1>Bookmarks</H1>\n<DL><p>\n").data

def footerDoc : List Char := "</DL><p>\n".data

/-- exportBookmarks without the file I/O: the full document text. -/
def exportContent (st : Store) : List Char :=
  preambleDoc ++ (st.bookmarks.map (exportEntry st)).foldr (· ++ ·) [] ++ footerDoc

/-! Suffix-safety predicates used to drive the leftmost-match scans through
symbolic text. -/

/-- Within the first min-length window, some character of `t` differs from
the corresponding character of `pat` — so `pat` cannot start at `t` whatever
text follows `t`. -/
def mismatchIn (pat t : List Char) : Bool :=
  match pat, t with
  | [], _ => false
  | _ :: _, [] => false
  | c :: p, d :: u => !(c == d) || mismatchIn p u

/-- Every suffix of `a` mismatches `pat` inside `a` itself: no occurrence of
`pat` can start anywhere in `a`, whatever text follows `a`. -/
def litSafe (pat : List Char) : List Char → Bool
  | [] => true
  | c :: rest => mismatchIn pat (c :: rest) && litSafe pat rest

/-- No start position inside `a` (continued by `b`) begins an occurrence of
`pat`. -/
def cleanBefore (pat a b : List Char) : Prop :=
  ∀ n, n < a.length → startsL pat (a.drop n ++ b) = false

/-- No start position inside `a` (continued by `b`) produces a match of the
attribute pattern LIT(cls+)". -/
def noHit (lit : List Char) (cls : Char → Bool) (a b : List Char) : Prop :=
  ∀ n, n < a.length → matchLit lit cls (a.drop n ++ b) = none

/-! The exact text exportBookmarks prints, in the nested shape the parsing
lemmas consume. -/

/-- The attribute text of one exported entry, with the optional TAGS part. -/
def attrShape (U C D : List Char) (Topt : Option (List Char)) : List Char :=
  "HREF=".data ++ [quoteC] ++ (U ++ quoteC ::
    (' ' :: ("ADD_DATE=".data ++ [quoteC] ++ (C ++ quoteC ::
      (' ' :: ("LAST_MODIFIED=".data ++ [quoteC] ++ (D ++ quoteC ::
        (match Topt with
         | some T => ' ' :: ("TAGS=".data ++ [quoteC] ++ (T ++ [quoteC]))
         | none => []))))))))

/-- One exported block body (what follows the `<DT>` marker). -/
def bodyShape (attrs escTitle escNote : List Char) : List Char :=
  '<' :: 'A' :: ' ' :: (attrs ++ '>' ::
    (escTitle ++ "</A>".data ++
      (if escNote ≠ [] then "<DD>".data ++ escNote else []) ++ ['\n']))

/-- The candidate the parser recovers from row `b` of an exported store. -/
def jobOf (st : Store) (b : BookmarkRow) : Job :=
  ⟨b.url, b.title, b.note, b.createdAt, b.updatedAt, tagsOf st b.id⟩

/-! Failure-free effect of the two transactions, used to characterise the
oracle versions: a transaction either errors (leaving the store as it was)
or commits exactly this effect. -/

/-- The committed effect of insertBookmark when it succeeds. -/
def upsertEntryP (st : Store) (j : Job) : Store × Nat :=
  match lookupUrl st j.URI with
  | none =>
    ({ st with
        bookmarks := st.bookmarks ++
          [⟨st.nextBookmarkId, j.URI, j.Title, j.Note, j.CreatedAt, j.UpdatedAt⟩],
        nextBookmarkId := st.nextBookmarkId + 1 }, st.nextBookmarkId)
  | some r => (st, r.id)

/-- The committed effect of the insertTags loop when it succeeds. -/
def applyTagsLoopP (bid : Nat) : List (List Char) → TagTx → TagTx
  | [], tx => tx
  | t :: rest, tx =>
    if t = [] then applyTagsLoopP bid rest tx
    else
      match lookupTagId tx.tags t with
      | some tid => applyTagsLoopP bid rest (addLink tx bid tid)
      | none =>
        applyTagsLoopP bid rest
          (addLink { tx with tags := tx.tags ++ [(tx.nextTagId, t)],
                             nextTagId := tx.nextTagId + 1 } bid tx.nextTagId)

/-- The committed effect of insertTags when it succeeds. -/
def applyTagsP (st : Store) (bid : Nat) (tags : List (List Char)) : Store :=
  let tx := applyTagsLoopP bid tags ⟨st.tags, st.links, st.nextTagId⟩
  { st with tags := tx.tags, links := tx.links, nextTagId := tx.nextTagId }

/-- Some entry with this address is stored. -/
def urlPresent (st : Store) (u : List Char) : Prop :=
  ∃ b ∈ st.bookmarks, b.url = u

/-! Observations used by the claims -/

/-- The (address, title, note, created, updated, label-set) tuple of one
stored entry; labels as a set, the round-trip law is modulo label order. -/
structure EntryTuple where
  address : List Char
  title : List Char
  note : List Char
  createdAt : Int
  updatedAt : Int
  labels : Finset (List Char)
deriving DecidableEq

def entryTuple (st : Store) (b : BookmarkRow) : EntryTuple :=
  ⟨b.url, b.title, b.note, b.createdAt, b.updatedAt, (tagsOf st b.id).toFinset⟩

def entryTuples (st : Store) : List EntryTuple :=
  st.bookmarks.map (entryTuple st)

def jobTuple (j : Job) : EntryTuple :=
  ⟨j.URI, j.Title, j.Note, j.CreatedAt, j.UpdatedAt, j.Tags.toFinset⟩

/-- Export the whole store, then import the produced document into a fresh
store, with no environment failures. -/
def roundTrip (now : Int) (st : Store) : Store :=
  (importContent noFails now emptyStore (exportContent st)).1

/-- States reachable through the schema's constraints: unique ids below the
next free id, unique urls, unique tag ids and texts, no duplicate
associations. -/
def WFStore (st : Store) : Prop :=
  (st.bookmarks.map (fun b => b.id)).Nodup ∧
  (∀ b ∈ st.bookmarks, b.id < st.nextBookmarkId) ∧
  (st.bookmarks.map (fun b => b.url)).Nodup ∧
  (st.tags.map (fun p => p.1)).Nodup ∧
  (∀ p ∈ st.tags, p.1 < st.nextTagId) ∧
  (st.tags.map (fun p => p.2)).Nodup ∧
  st.links.Nodup ∧
  (∀ l ∈ st.links, (∃ p ∈ st.tags, p.1 = l.2) ∧ ∃ b ∈ st.bookmarks, b.id = l.1)

def isEscapable (c : Char) : Bool :=
  c == '&' || c == aposC || c == '<' || c == '>' || c == quoteC

/-- No character of `s` is rewritten by html.EscapeString. -/
def escFree (s : List Char) : Prop := ∀ c ∈ s, isEscapable c = false

/-- htmlUnescape undoes html.EscapeString on `s` (true e.g. whenever `s` has
no double quote and no ampersand followed by text that the sequential
replacement passes fold into an entity). -/
def decodeEncodeId (s : List Char) : Prop := htmlUnescape (escapeString s) = s

def goodTag (t : List Char) : Prop :=
  t ≠ [] ∧ trimSpace t = t ∧ escFree t ∧ ',' ∉ t

/-- The per-row conditions under which one exported entry re-imports to the
same tuple (see the corrected round-trip claim). -/
def goodRow (st : Store) (b : BookmarkRow) : Prop :=
  b.url ≠ [] ∧ escFree b.url ∧ containsSub ("TAGS=".data) b.url = false ∧
  decodeEncodeId b.title ∧ trimSpace b.title = b.title ∧ '\n' ∉ b.title ∧
  decodeEncodeId b.note ∧ trimSpace b.note = b.note ∧
  0 ≤ b.createdAt ∧ b.createdAt ≤ (int64Max : Int) ∧
  0 ≤ b.updatedAt ∧ b.updatedAt ≤ (int64Max : Int) ∧
  (∀ t ∈ tagsOf st b.id, goodTag t)

instance decEscFree (s : List Char) : Decidable (escFree s) := by
  unfold escFree; infer_instance

instance decDecodeEncodeId (s : List Char) : Decidable (decodeEncodeId s) := by
  unfold decodeEncodeId; infer_instance

instance decGoodTag (t : List Char) : Decidable (goodTag t) := by
  unfold goodTag; infer_instance

instance decGoodRow (st : Store) (b : BookmarkRow) : Decidable (goodRow st b) := by
  unfold goodRow; infer_instance

instance decWFStore (st : Store) : Decidable (WFStore st) := by
  unfold WFStore; infer_instance

/-! Concrete instances used as witnesses -/

/-- The example input block of the spec (§8). -/
def c4input : List Char :=
  ("<A HREF=\"https://example.com\" ADD_DATE=\"1000\" TAGS=\"a, b\">" ++
    "Example</A><DD>a note").data

def c4job : Job :=
  { URI := "https://example.com".data, Title := "Example".data,
    Note := "a note".data, CreatedAt := 1000, UpdatedAt := 1000,
    Tags := ["a".data, "b".data] }

/-- An oracle failing exactly the statement at position n. -/
def failAt (n : Nat) : Nat → Bool := fun k => k == n

/-- One candidate with a single label, for the transaction counterexample. -/
def exJob : Job := ⟨"u".data, "t".data, [], 1, 1, ["x".data]⟩

/-- A store whose single entry has an address containing an escapable
character. -/
def ampStore : Store :=
  ⟨[⟨1, "a&b".data, "T".data, [], 10, 10⟩], [], [], 2, 1⟩

/-- A small well-formed store with tags, satisfying every goodRow condition;
its first title contains both < and & (the spec's round-trip example). -/
def exStore : Store :=
  ⟨[⟨1, "https://e.com/x".data, "Ti<tle&x".data, "note text".data, 1000, 2000⟩,
    ⟨2, "u2".data, "T2".data, [], 5, 5⟩],
   [(1, "a".data), (2, "b".data)], [(1, 1), (1, 2)], 3, 3⟩

/-! # Theorems -/

/-! Fuel irrelevance and step equations for the fuel-based functions -/

theorem splitOnSubF_fuel (sep : List Char) :
    ∀ f1 : Nat, ∀ f2 s, s.length ≤ f1 → s.length ≤ f2 →
      splitOnSubF sep f1 s = splitOnSubF sep f2 s := by
  intro f1
  induction f1 with
  | zero =>
    intro f2 s h1 _
    have hs : s = [] := List.eq_nil_of_length_eq_zero (Nat.le_zero.mp h1)
    subst hs
    cases f2 <;> rfl
  | succ g ih =>
    intro f2 s h1 h2
    cases s with
    | nil => cases f2 <;> rfl
    | cons c rest =>
      cases f2 with
      | zero => simp at h2
      | succ h =>
        simp only [splitOnSubF]
        have hr : rest.length ≤ g := by
          simp only [List.length_cons] at h1; omega
        have hr2 : rest.length ≤ h := by
          simp only [List.length_cons] at h2; omega
        by_cases hc : sep ≠ [] ∧ startsL sep (c :: rest) = true
        · simp only [if_pos hc]
          have hd : (rest.drop (sep.length - 1)).length ≤ rest.length := by
            simp only [List.length_drop]; omega
          rw [ih h (rest.drop (sep.length - 1)) (le_trans hd hr) (le_trans hd hr2)]
        · simp only [if_neg hc]
          rw [ih h rest hr hr2]

theorem splitOnSub_nil (sep : List Char) : splitOnSub sep [] = [[]] := rfl

theorem splitOnSub_cons (sep : List Char) (c : Char) (rest : List Char) :
    splitOnSub sep (c :: rest) =
      if sep ≠ [] ∧ startsL sep (c :: rest) = true then
        [] :: splitOnSub sep (rest.drop (sep.length - 1))
      else
        match splitOnSub sep rest with
        | [] => [[c]]
        | g :: gs => (c :: g) :: gs := by
  show splitOnSubF sep (c :: rest).length (c :: rest) = _
  simp only [List.length_cons, splitOnSubF]
  by_cases hc : sep ≠ [] ∧ startsL sep (c :: rest) = true
  · simp only [if_pos hc]
    rw [splitOnSubF_fuel sep rest.length (rest.drop (sep.length - 1)).length
      (rest.drop (sep.length - 1)) (by simp only [List.length_drop]; omega) le_rfl]
    rfl
  · simp only [if_neg hc]
    rfl

theorem replaceAllF_fuel (pat rep : List Char) :
    ∀ f1 : Nat, ∀ f2 s, s.length ≤ f1 → s.length ≤ f2 →
      replaceAllF pat rep f1 s = replaceAllF pat rep f2 s := by
  intro f1
  induction f1 with
  | zero =>
    intro f2 s h1 _
    have hs : s = [] := List.eq_nil_of_length_eq_zero (Nat.le_zero.mp h1)
    subst hs
    cases f2 <;> rfl
  | succ g ih =>
    intro f2 s h1 h2
    cases s with
    | nil => cases f2 <;> rfl
    | cons c rest =>
      cases f2 with
      | zero => simp at h2
      | succ h =>
        simp only [replaceAllF]
        have hr : rest.length ≤ g := by
          simp only [List.length_cons] at h1; omega
        have hr2 : rest.length ≤ h := by
          simp only [List.length_cons] at h2; omega
        by_cases hc : pat ≠ [] ∧ startsL pat (c :: rest) = true
        · simp only [if_pos hc]
          have hd : (rest.drop (pat.length - 1)).length ≤ rest.length := by
            simp only [List.length_drop]; omega
          rw [ih h (rest.drop (pat.length - 1)) (le_trans hd hr) (le_trans hd hr2)]
        · simp only [if_neg hc]
          rw [ih h rest hr hr2]

theorem replaceAll_nil (pat rep : List Char) : replaceAll pat rep [] = [] := rfl

theorem replaceAll_cons (pat rep : List Char) (c : Char) (rest : List Char) :
    replaceAll pat rep (c :: rest) =
      if pat ≠ [] ∧ startsL pat (c :: rest) = true then
        rep ++ replaceAll pat rep (rest.drop (pat.length - 1))
      else
        c :: replaceAll pat rep rest := by
  show replaceAllF pat rep (c :: rest).length (c :: rest) = _
  simp only [List.length_cons, replaceAllF]
  by_cases hc : pat ≠ [] ∧ startsL pat (c :: rest) = true
  · simp only [if_pos hc]
    rw [replaceAllF_fuel pat rep rest.length (rest.drop (pat.length - 1)).length
      (rest.drop (pat.length - 1)) (by simp only [List.length_drop]; omega) le_rfl]
    rfl
  · simp only [if_neg hc]
    rfl

theorem natToDigitsF_fuel :
    ∀ f1 : Nat, ∀ f2 n, n < f1 → n < f2 → natToDigitsF f1 n = natToDigitsF f2 n := by
  intro f1
  induction f1 with
  | zero => intro f2 n h1 _; omega
  | succ g ih =>
    intro f2 n h1 h2
    cases f2 with
    | zero => omega
    | succ h =>
      simp only [natToDigitsF]
      by_cases hn : n < 10
      · simp only [if_pos hn]
      · simp only [if_neg hn]
        have hd : n / 10 < n := Nat.div_lt_self (by omega) (by omega)
        rw [ih h (n / 10) (by omega) (by omega)]

theorem natToDigits_eq (n : Nat) :
    natToDigits n =
      if n < 10 then [Char.ofNat (48 + n)]
      else natToDigits (n / 10) ++ [Char.ofNat (48 + n % 10)] := by
  show natToDigitsF (n + 1) n = _
  simp only [natToDigitsF]
  by_cases hn : n < 10
  · simp only [if_pos hn]
  · simp only [if_neg hn]
    have hd : n / 10 < n := Nat.div_lt_self (by omega) (by omega)
    rw [natToDigitsF_fuel n (n / 10 + 1) (n / 10) (by omega) (by omega)]
    rfl

/-! Basic facts about startsL, scanFor, takeWhile and trimming -/

theorem startsL_iff (p : List Char) : ∀ s, startsL p s = true ↔ ∃ t, s = p ++ t := by
  induction p with
  | nil => intro s; simp [startsL]
  | cons c p ih =>
    intro s
    cases s with
    | nil =>
      simp only [startsL, List.cons_append]
      constructor
      · intro h; cases h
      · rintro ⟨t, ht⟩; cases ht
    | cons d s' =>
      simp only [startsL, Bool.and_eq_true, beq_iff_eq, List.cons_append]
      constructor
      · rintro ⟨h1, h2⟩
        obtain ⟨t, rfl⟩ := (ih s').mp h2
        exact ⟨t, by rw [h1]⟩
      · rintro ⟨t, ht⟩
        rw [List.cons.injEq] at ht
        exact ⟨ht.1.symm, (ih s').mpr ⟨t, ht.2⟩⟩

theorem startsL_self (p t : List Char) : startsL p (p ++ t) = true :=
  (startsL_iff p (p ++ t)).mpr ⟨t, rfl⟩

theorem scanFor_cons {α : Type} (f : List Char → Option α) (c : Char) (rest : List Char) :
    scanFor f (c :: rest) = (f (c :: rest)).orElse (fun _ => scanFor f rest) := rfl

theorem scanFor_hit {α : Type} (f : List Char → Option α) {s : List Char} {a : α}
    (hs : s ≠ []) (h : f s = some a) : scanFor f s = some a := by
  cases s with
  | nil => exact absurd rfl hs
  | cons c rest => rw [scanFor_cons, h]; rfl

theorem scanFor_skip {α : Type} (f : List Char → Option α) :
    ∀ (a b : List Char), (∀ n, n < a.length → f (a.drop n ++ b) = none) →
      scanFor f (a ++ b) = scanFor f b := by
  intro a
  induction a with
  | nil => intro b _; rfl
  | cons c a' ih =>
    intro b h
    have h0 : f (c :: (a' ++ b)) = none := by
      have := h 0 (by simp)
      simpa using this
    rw [List.cons_append, scanFor_cons, h0]
    have h' : ∀ n, n < a'.length → f (a'.drop n ++ b) = none := by
      intro n hn
      have := h (n + 1) (by simp; omega)
      simpa using this
    simpa [Option.orElse] using ih b h'

theorem scanFor_all_none {α : Type} (f : List Char → Option α) :
    ∀ s : List Char, (∀ n, n < s.length → f (s.drop n) = none) →
      scanFor f s = none := by
  intro s h
  have := scanFor_skip f s [] (by intro n hn; simpa using h n hn)
  simpa using this

theorem takeWhile_middle (p : Char → Bool) :
    ∀ (a : List Char) (x : Char) (b : List Char), (∀ c ∈ a, p c = true) →
      p x = false → (a ++ x :: b).takeWhile p = a := by
  intro a
  induction a with
  | nil => intro x b _ hx; simp [List.takeWhile, hx]
  | cons c a' ih =>
    intro x b ha hx
    have hc : p c = true := ha c (by simp)
    simp only [List.cons_append, List.takeWhile_cons, hc, if_true]
    rw [ih x b (fun d hd => ha d (by simp [hd])) hx]

theorem takeWhile_all (p : Char → Bool) :
    ∀ a : List Char, (∀ c ∈ a, p c = true) → a.takeWhile p = a := by
  intro a
  induction a with
  | nil => intro _; rfl
  | cons c a' ih =>
    intro ha
    have hc : p c = true := ha c (by simp)
    simp only [List.takeWhile_cons, hc, if_true]
    rw [ih (fun d hd => ha d (by simp [hd]))]

theorem dropWhile_cons_false (p : Char → Bool) {c : Char} (s : List Char)
    (h : p c = false) : (c :: s).dropWhile p = c :: s := by
  simp [List.dropWhile_cons, h]

theorem dropWhile_head_false (p : Char → Bool) :
    ∀ (s : List Char) (c : Char) (t : List Char), s.dropWhile p = c :: t → p c = false := by
  intro s
  induction s with
  | nil => intro c t h; cases h
  | cons d s' ih =>
    intro c t h
    by_cases hd : p d = true
    · rw [List.dropWhile_cons, if_pos hd] at h
      exact ih c t h
    · rw [List.dropWhile_cons, if_neg hd] at h
      rw [List.cons.injEq] at h
      rw [← h.1]
      exact Bool.not_eq_true _ |>.mp hd

theorem dropWhile_append_exists (p : Char → Bool) :
    ∀ s : List Char, ∃ w, s = w ++ s.dropWhile p ∧ ∀ c ∈ w, p c = true := by
  intro s
  induction s with
  | nil => exact ⟨[], rfl, by simp⟩
  | cons d s' ih =>
    by_cases hd : p d = true
    · obtain ⟨w, hw, hwp⟩ := ih
      refine ⟨d :: w, ?_, ?_⟩
      · rw [List.dropWhile_cons, if_pos hd, List.cons_append, ← hw]
      · intro c hc
        rcases List.mem_cons.mp hc with h | h
        · rw [h]; exact hd
        · exact hwp c h
    · refine ⟨[], ?_, by simp⟩
      rw [List.dropWhile_cons, if_neg hd]
      rfl

/-! Trimming lemmas -/

theorem trimLeft_cons_false {c : Char} (s : List Char) (h : isGoSpace c = false) :
    trimLeft (c :: s) = c :: s :=
  dropWhile_cons_false isGoSpace s h

theorem trimRight_append_space (s : List Char) {c : Char} (h : isGoSpace c = true) :
    trimRight (s ++ [c]) = trimRight s := by
  unfold trimRight
  rw [List.reverse_append]
  simp [List.dropWhile_cons, h]

theorem trimRight_append_false (s : List Char) {c : Char} (h : isGoSpace c = false) :
    trimRight (s ++ [c]) = s ++ [c] := by
  unfold trimRight
  rw [List.reverse_append]
  simp only [List.reverse_cons, List.reverse_nil, List.nil_append, List.singleton_append,
    List.dropWhile_cons, h]
  simp

theorem trimRight_nil : trimRight [] = [] := rfl

theorem trimLeft_nil : trimLeft [] = [] := rfl

theorem dropWhile_append_all (p : Char → Bool) :
    ∀ (w y : List Char), (∀ c ∈ w, p c = true) → (w ++ y).dropWhile p = y.dropWhile p := by
  intro w
  induction w with
  | nil => intro y _; rfl
  | cons c w' ih =>
    intro y h
    have hc : p c = true := h c (by simp)
    simp only [List.cons_append, List.dropWhile_cons, hc, if_true]
    exact ih y (fun d hd => h d (by simp [hd]))

/-- trimRight only removes a (whitespace) suffix. -/
theorem trimRight_is_prefixed (s : List Char) :
    ∃ w, s = trimRight s ++ w ∧ ∀ c ∈ w, isGoSpace c = true := by
  obtain ⟨w, hw, hwp⟩ := dropWhile_append_exists isGoSpace s.reverse
  refine ⟨w.reverse, ?_, fun c hc => hwp c (List.mem_reverse.mp hc)⟩
  conv_lhs => rw [← List.reverse_reverse s, hw, List.reverse_append]
  rfl

theorem trimRight_idem (s : List Char) : trimRight (trimRight s) = trimRight s := by
  unfold trimRight
  rw [List.reverse_reverse, List.dropWhile_idempotent]

theorem trimLeft_trimRight_trimLeft (s : List Char) :
    trimLeft (trimRight (trimLeft s)) = trimRight (trimLeft s) := by
  rcases h : trimRight (trimLeft s) with _ | ⟨c, t⟩
  · rfl
  · obtain ⟨w, hw, _⟩ := trimRight_is_prefixed (trimLeft s)
    rw [h] at hw
    have hc : isGoSpace c = false := by
      apply dropWhile_head_false isGoSpace s c (t ++ w)
      show trimLeft s = c :: (t ++ w)
      rw [hw]; rfl
    exact trimLeft_cons_false t hc

theorem trimSpace_idem (s : List Char) : trimSpace (trimSpace s) = trimSpace s := by
  show trimRight (trimLeft (trimRight (trimLeft s))) = trimRight (trimLeft s)
  rw [trimLeft_trimRight_trimLeft, trimRight_idem]

/-! Decimal digits facts -/

def digitChars : List Char := "0123456789".data

theorem digitChars_props : ∀ c ∈ digitChars,
    isEscapable c = false ∧ isGoSpace c = false ∧ isRegexSpace c = false ∧
    (c == '>') = false ∧ (c == '<') = false ∧ (c == quoteC) = false ∧
    (c == ',') = false ∧ (c == '\n') = false ∧ Char.isDigit c = true := by
  decide

theorem natToDigits_mem (n : Nat) : ∀ c ∈ natToDigits n, c ∈ digitChars := by
  induction n using Nat.strong_induction_on with
  | _ n ih =>
    intro c hc
    rw [natToDigits_eq] at hc
    by_cases hn : n < 10
    · rw [if_pos hn] at hc
      rw [List.mem_singleton] at hc
      subst hc
      interval_cases n <;> decide
    · rw [if_neg hn] at hc
      rcases List.mem_append.mp hc with h | h
      · exact ih (n / 10) (Nat.div_lt_self (by omega) (by omega)) c h
      · have hm : n % 10 < 10 := Nat.mod_lt _ (by omega)
        set m := n % 10 with hmdef
        rw [List.mem_singleton] at h
        subst h
        interval_cases m <;> decide

theorem natToDigits_ne_nil (n : Nat) : natToDigits n ≠ [] := by
  rw [natToDigits_eq]
  by_cases hn : n < 10
  · rw [if_pos hn]; simp
  · rw [if_neg hn]; simp

theorem digitsVal_append_one (a : List Char) (c : Char) :
    digitsVal (a ++ [c]) = 10 * digitsVal a + (c.toNat - 48) := by
  unfold digitsVal
  rw [List.foldl_append]
  rfl

theorem digitsVal_natToDigits (n : Nat) : digitsVal (natToDigits n) = n := by
  induction n using Nat.strong_induction_on with
  | _ n ih =>
    rw [natToDigits_eq]
    by_cases hn : n < 10
    · rw [if_pos hn]
      interval_cases n <;> decide
    · rw [if_neg hn]
      rw [digitsVal_append_one, ih (n / 10) (Nat.div_lt_self (by omega) (by omega))]
      have hm : n % 10 < 10 := Nat.mod_lt _ (by omega)
      have hv : (Char.ofNat (48 + n % 10)).toNat - 48 = n % 10 := by
        set m := n % 10 with hmdef
        interval_cases m <;> decide
      rw [hv]
      omega

/-! Characterization of parseBlock -/

theorem parseBlock_eq (now : Int) (b : List Char) :
    parseBlock now b =
      match findAnchor (trimSpace b) with
      | none => none
      | some (attrStr, inner0) =>
        if extractHref attrStr = [] then none
        else some { URI := extractHref attrStr,
                    Title := htmlUnescape (trimSpace inner0),
                    Note := extractDescription (trimSpace b),
                    CreatedAt := extractTimestamp findAddDate attrStr now,
                    UpdatedAt := extractTimestamp findLastMod attrStr
                      (extractTimestamp findAddDate attrStr now),
                    Tags := extractTags attrStr } := by
  unfold parseBlock
  by_cases hb : trimSpace b = []
  · rw [if_pos hb, hb]
    rfl
  · rw [if_neg hb]

theorem parseBlock_some_of_href (now : Int) (b : List Char) (attrStr inner0 : List Char)
    (hfa : findAnchor (trimSpace b) = some (attrStr, inner0))
    (hu : extractHref attrStr ≠ []) :
    parseBlock now b =
      some { URI := extractHref attrStr,
             Title := htmlUnescape (trimSpace inner0),
             Note := extractDescription (trimSpace b),
             CreatedAt := extractTimestamp findAddDate attrStr now,
             UpdatedAt := extractTimestamp findLastMod attrStr
               (extractTimestamp findAddDate attrStr now),
             Tags := extractTags attrStr } := by
  rw [parseBlock_eq]
  rw [hfa]
  exact if_neg hu

theorem parseBlock_none_of_no_anchor (now : Int) (b : List Char)
    (hfa : findAnchor (trimSpace b) = none) : parseBlock now b = none := by
  rw [parseBlock_eq, hfa]

theorem parseBlock_none_of_no_href (now : Int) (b : List Char)
    (attrStr inner0 : List Char)
    (hfa : findAnchor (trimSpace b) = some (attrStr, inner0))
    (hu : extractHref attrStr = []) : parseBlock now b = none := by
  rw [parseBlock_eq, hfa]
  exact if_pos hu

theorem parseBlock_fields (now : Int) (b : List Char) (attrStr inner0 : List Char)
    (j : Job) (hfa : findAnchor (trimSpace b) = some (attrStr, inner0))
    (hj : parseBlock now b = some j) :
    j.URI = extractHref attrStr ∧
    j.Title = htmlUnescape (trimSpace inner0) ∧
    j.Note = extractDescription (trimSpace b) ∧
    j.CreatedAt = extractTimestamp findAddDate attrStr now ∧
    j.UpdatedAt = extractTimestamp findLastMod attrStr
      (extractTimestamp findAddDate attrStr now) ∧
    j.Tags = extractTags attrStr := by
  by_cases hu : extractHref attrStr = []
  · rw [parseBlock_none_of_no_href now b attrStr inner0 hfa hu] at hj
    cases hj
  · rw [parseBlock_some_of_href now b attrStr inner0 hfa hu] at hj
    rw [Option.some.injEq] at hj
    subst hj
    exact ⟨rfl, rfl, rfl, rfl, rfl, rfl⟩

/-! Characterization of extractTimestamp and extractTags -/

theorem extractTimestamp_default (find : List Char → Option (List Char))
    (attrStr : List Char) (d : Int)
    (h : find attrStr = none ∨ ∀ ds, find attrStr = some ds → parseInt64 ds = none) :
    extractTimestamp find attrStr d = d := by
  unfold extractTimestamp
  rcases hf : find attrStr with _ | ds
  · rfl
  · rcases h with h | h
    · rw [hf] at h; cases h
    · show (match parseInt64 ds with | some v => v | none => d) = d
      rw [h ds hf]

theorem extractTimestamp_value (find : List Char → Option (List Char))
    (attrStr : List Char) (d : Int) (ds : List Char) (v : Int)
    (hf : find attrStr = some ds) (hp : parseInt64 ds = some v) :
    extractTimestamp find attrStr d = v := by
  unfold extractTimestamp
  rw [hf]
  show (match parseInt64 ds with | some w => w | none => d) = v
  rw [hp]

theorem extractTags_of_found (attrStr m : List Char)
    (h : findTags attrStr = some m) (hm : m ≠ []) :
    extractTags attrStr =
      ((splitOnComma m).map trimSpace).filter (fun t => !t.isEmpty) := by
  unfold extractTags
  rw [h]
  exact if_pos hm

theorem extractTags_trimmed (attrStr : List Char) :
    ∀ t ∈ extractTags attrStr, trimSpace t = t ∧ t ≠ [] := by
  intro t ht
  rcases h : findTags attrStr with _ | m
  · unfold extractTags at ht
    rw [h] at ht
    have ht2 : t ∈ ([] : List (List Char)) := ht
    cases ht2
  · by_cases hm : m = []
    · unfold extractTags at ht
      rw [h] at ht
      subst hm
      have ht2 : t ∈ ([] : List (List Char)) := ht
      cases ht2
    · rw [extractTags_of_found attrStr m h hm] at ht
      rw [List.mem_filter] at ht
      obtain ⟨hmem, hne⟩ := ht
      rw [List.mem_map] at hmem
      obtain ⟨x, _, rfl⟩ := hmem
      refine ⟨trimSpace_idem x, ?_⟩
      intro hnil
      rw [hnil] at hne
      cases hne


/-! Claim theorems: parsing -/

/-- C4: the input block
`<A HREF="https://example.com" ADD_DATE="1000" TAGS="a, b">Example</A><DD>a note`
yields exactly one candidate with address https://example.com, title Example,
creation timestamp 1000, modification timestamp 1000 (defaulted to the
creation timestamp, LAST_MODIFIED being absent), labels ["a", "b"] and note
"a note" — whatever the clock value is. -/
theorem C4_example_block (now : Int) :
    parseBlocks now (splitOnSub dtSep c4input) = [c4job] := rfl

/-- C5: for every block, if the first anchor match carries a non-empty HREF
attribute value, the parser yields exactly one candidate whose address is
that value exactly; if the block has no anchor-style tag or no HREF
attribute, the parser yields no candidate for that block (silently, the run
goes on), and each block contributes exactly its own candidate (1 or 0) to
the candidate count. -/
theorem C5_per_block (now : Int) (b : List Char) :
    (∀ attrStr inner0, findAnchor (trimSpace b) = some (attrStr, inner0) →
      extractHref attrStr ≠ [] →
      ∃ j, parseBlock now b = some j ∧ j.URI = extractHref attrStr) ∧
    (findAnchor (trimSpace b) = none → parseBlock now b = none) ∧
    (∀ attrStr inner0, findAnchor (trimSpace b) = some (attrStr, inner0) →
      extractHref attrStr = [] → parseBlock now b = none) ∧
    ∀ rest : List (List Char),
      (parseBlocks now (b :: rest)).length =
        (if (parseBlock now b).isSome then 1 else 0) +
          (parseBlocks now rest).length := by
  refine ⟨?_, ?_, ?_, ?_⟩
  · intro attrStr inner0 hfa hu
    exact ⟨_, parseBlock_some_of_href now b attrStr inner0 hfa hu, rfl⟩
  · exact parseBlock_none_of_no_anchor now b
  · exact parseBlock_none_of_no_href now b
  · intro rest
    unfold parseBlocks
    rw [List.filterMap_cons]
    rcases parseBlock now b with _ | j
    · simp
    · simp [Nat.add_comm]

theorem C5_per_block_witness :
    (∃ j, parseBlock 5 c4input = some j ∧
      j.URI = extractHref
        ("HREF=\"https://example.com\" ADD_DATE=\"1000\" TAGS=\"a, b\"".data)) ∧
    parseBlock 5 ("no anchor here".data) = none :=
  ⟨(C5_per_block 5 c4input).1
      ("HREF=\"https://example.com\" ADD_DATE=\"1000\" TAGS=\"a, b\"".data)
      ("Example".data) (by decide) (by decide),
   (C5_per_block 5 ("no anchor here".data)).2.1 (by decide)⟩

/-- C6: for every parsed block, if the ADD_DATE attribute is absent (no
match) or unparsable (integer overflow), the candidate's creation timestamp
is the clock value `now`; if LAST_MODIFIED is absent or unparsable, the
modification timestamp equals the creation timestamp; when present and
parsable each value is taken verbatim. -/
theorem C6_timestamp_defaults (now : Int) (b : List Char)
    (attrStr inner0 : List Char) (j : Job)
    (hfa : findAnchor (trimSpace b) = some (attrStr, inner0))
    (hj : parseBlock now b = some j) :
    ((findAddDate attrStr = none ∨
        ∀ ds, findAddDate attrStr = some ds → parseInt64 ds = none) →
      j.CreatedAt = now) ∧
    ((findLastMod attrStr = none ∨
        ∀ ds, findLastMod attrStr = some ds → parseInt64 ds = none) →
      j.UpdatedAt = j.CreatedAt) ∧
    (∀ ds v, findAddDate attrStr = some ds → parseInt64 ds = some v →
      j.CreatedAt = v) ∧
    (∀ ds v, findLastMod attrStr = some ds → parseInt64 ds = some v →
      j.UpdatedAt = v) := by
  obtain ⟨-, -, -, hc, hu2, -⟩ := parseBlock_fields now b attrStr inner0 j hfa hj
  refine ⟨?_, ?_, ?_, ?_⟩
  · intro h
    rw [hc]
    exact extractTimestamp_default findAddDate attrStr now h
  · intro h
    rw [hu2, hc]
    exact extractTimestamp_default findLastMod attrStr _ h
  · intro ds v hds hv
    rw [hc]
    exact extractTimestamp_value findAddDate attrStr now ds v hds hv
  · intro ds v hds hv
    rw [hu2]
    exact extractTimestamp_value findLastMod attrStr _ ds v hds hv

theorem C6_timestamp_defaults_witness :
    (⟨"u".data, "t".data, [], 5, 5, []⟩ : Job).CreatedAt = 5 ∧
    (⟨"u".data, "t".data, [], 5, 5, []⟩ : Job).UpdatedAt = 5 :=
  ⟨(C6_timestamp_defaults 5 ("<A HREF=\"u\">t</A>".data) ("HREF=\"u\"".data)
      ("t".data) ⟨"u".data, "t".data, [], 5, 5, []⟩ (by decide) (by decide)).1
      (Or.inl (by decide)),
   (C6_timestamp_defaults 5 ("<A HREF=\"u\">t</A>".data) ("HREF=\"u\"".data)
      ("t".data) ⟨"u".data, "t".data, [], 5, 5, []⟩ (by decide) (by decide)).2.1
      (Or.inl (by decide))⟩

/-- C10: parseBlocks reads the clock exactly once (the single `now` value
taken before the loop, bmark-importer.go line 133) and every candidate of the
same invocation whose ADD_DATE is absent or unparsable gets that same value:
two such candidates always carry identical default creation timestamps. -/
theorem C10_single_clock (now : Int) (b1 b2 : List Char)
    (a1 i1 a2 i2 : List Char) (j1 j2 : Job)
    (h1 : findAnchor (trimSpace b1) = some (a1, i1))
    (h2 : findAnchor (trimSpace b2) = some (a2, i2))
    (hj1 : parseBlock now b1 = some j1) (hj2 : parseBlock now b2 = some j2)
    (hd1 : findAddDate a1 = none ∨
      ∀ ds, findAddDate a1 = some ds → parseInt64 ds = none)
    (hd2 : findAddDate a2 = none ∨
      ∀ ds, findAddDate a2 = some ds → parseInt64 ds = none) :
    j1.CreatedAt = now ∧ j2.CreatedAt = now ∧ j1.CreatedAt = j2.CreatedAt := by
  obtain ⟨-, -, -, hc1, -, -⟩ := parseBlock_fields now b1 a1 i1 j1 h1 hj1
  obtain ⟨-, -, -, hc2, -, -⟩ := parseBlock_fields now b2 a2 i2 j2 h2 hj2
  have e1 : j1.CreatedAt = now := by
    rw [hc1]; exact extractTimestamp_default findAddDate a1 now hd1
  have e2 : j2.CreatedAt = now := by
    rw [hc2]; exact extractTimestamp_default findAddDate a2 now hd2
  exact ⟨e1, e2, by rw [e1, e2]⟩

theorem C10_single_clock_witness :
    (⟨"u".data, "t".data, [], 5, 5, []⟩ : Job).CreatedAt = 5 ∧
    (⟨"v".data, [], "n".data, 5, 5, []⟩ : Job).CreatedAt = 5 ∧
    (⟨"u".data, "t".data, [], 5, 5, []⟩ : Job).CreatedAt =
      (⟨"v".data, [], "n".data, 5, 5, []⟩ : Job).CreatedAt :=
  C10_single_clock 5 ("<A HREF=\"u\">t</A>".data)
    ("<A HREF=\"v\"></A><DD>n".data) ("HREF=\"u\"".data) ("t".data)
    ("HREF=\"v\"".data) [] ⟨"u".data, "t".data, [], 5, 5, []⟩
    ⟨"v".data, [], "n".data, 5, 5, []⟩ (by decide) (by decide) (by decide)
    (by decide) (Or.inl (by decide)) (Or.inl (by decide))

/-! The two transactions: all-or-nothing characterisation -/

theorem addLink_tags (tx : TagTx) (bid tid : Nat) :
    (addLink tx bid tid).tags = tx.tags ∧
    (addLink tx bid tid).nextTagId = tx.nextTagId := by
  unfold addLink
  split <;> exact ⟨rfl, rfl⟩

theorem addLink_links_nodup (tx : TagTx) (bid tid : Nat) (h : tx.links.Nodup) :
    (addLink tx bid tid).links.Nodup := by
  unfold addLink
  split
  · exact h
  · rename_i hmem
    refine List.Nodup.append h (List.nodup_singleton _) ?_
    intro a ha hax
    rw [List.mem_singleton] at hax
    subst hax
    exact hmem ha

theorem insertTagsLoop_sound (fail : Nat → Bool) (bid : Nat) :
    ∀ (ts : List (List Char)) (tx : TagTx) (k : Nat) (tx' : TagTx) (k' : Nat),
      insertTagsLoop fail bid ts tx k = some (tx', k') →
      tx' = applyTagsLoopP bid ts tx := by
  intro ts
  induction ts with
  | nil =>
    intro tx k tx' k' h
    simp only [insertTagsLoop, Option.some.injEq, Prod.mk.injEq] at h
    rw [applyTagsLoopP]
    exact h.1.symm
  | cons t rest ih =>
    intro tx k tx' k' h
    simp only [insertTagsLoop] at h
    simp only [applyTagsLoopP]
    split at h
    · rename_i ht
      rw [if_pos ht]
      exact ih _ _ _ _ h
    · rename_i ht
      rw [if_neg ht]
      split at h
      · exact Option.noConfusion h
      · split at h
        · rename_i tid heq
          split at h
          · exact Option.noConfusion h
          · exact ih _ _ _ _ h
        · rename_i heq
          split at h
          · exact Option.noConfusion h
          · split at h
            · exact Option.noConfusion h
            · exact ih _ _ _ _ h

theorem insertTagsLoop_noFail (bid : Nat) :
    ∀ (ts : List (List Char)) (tx : TagTx) (k : Nat),
      ∃ k', insertTagsLoop noFail bid ts tx k =
        some (applyTagsLoopP bid ts tx, k') := by
  intro ts
  induction ts with
  | nil =>
    intro tx k
    exact ⟨k, by simp [insertTagsLoop, applyTagsLoopP]⟩
  | cons t rest ih =>
    intro tx k
    simp only [insertTagsLoop, applyTagsLoopP, noFail]
    by_cases ht : t = []
    · simp only [if_pos ht]
      exact ih tx k
    · simp only [if_neg ht, Bool.false_eq_true, if_false]
      rcases hl : lookupTagId tx.tags t with _ | tid
      · exact ih _ _
      · exact ih _ _

theorem insertTags_cases (fail : Nat → Bool) (st : Store) (bid : Nat)
    (tags : List (List Char)) :
    insertTags fail st bid tags = none ∨
    insertTags fail st bid tags = some (applyTagsP st bid tags) := by
  unfold insertTags
  split
  · exact Or.inl rfl
  · split
    · exact Or.inl rfl
    · rename_i tx k heq
      split
      · exact Or.inl rfl
      · refine Or.inr ?_
        have htx : tx = applyTagsLoopP bid tags ⟨st.tags, st.links, st.nextTagId⟩ :=
          insertTagsLoop_sound fail bid tags _ 5 tx k heq
        rw [htx]
        rfl

theorem insertTags_noFail (st : Store) (bid : Nat) (tags : List (List Char)) :
    insertTags noFail st bid tags = some (applyTagsP st bid tags) := by
  unfold insertTags
  obtain ⟨k', hk⟩ := insertTagsLoop_noFail bid tags ⟨st.tags, st.links, st.nextTagId⟩ 5
  rw [hk]
  simp [noFail, applyTagsP]

theorem insertBookmark_cases (fail : Nat → Bool) (st : Store) (j : Job) :
    insertBookmark fail st j.URI j.Title j.Note j.CreatedAt j.UpdatedAt = none ∨
    insertBookmark fail st j.URI j.Title j.Note j.CreatedAt j.UpdatedAt =
      some (upsertEntryP st j) := by
  unfold insertBookmark upsertEntryP
  split
  · exact Or.inl rfl
  · split
    · exact Or.inl rfl
    · split
      · split
        · exact Or.inl rfl
        · exact Or.inr rfl
      · split
        · exact Or.inl rfl
        · split
          · exact Or.inl rfl
          · exact Or.inr rfl

theorem insertBookmark_noFail (st : Store) (j : Job) :
    insertBookmark noFail st j.URI j.Title j.Note j.CreatedAt j.UpdatedAt =
      some (upsertEntryP st j) := by
  rcases insertBookmark_cases noFail st j with h | h
  · exfalso
    unfold insertBookmark at h
    simp only [noFail, Bool.false_eq_true, if_false] at h
    rcases hu : lookupUrl st j.URI with _ | r <;> rw [hu] at h <;> cases h
  · exact h

theorem processJob_cases (fail : Nat → Bool) (st : Store) (j : Job) :
    processJob fail st j = (st, false) ∨
    processJob fail st j = ((upsertEntryP st j).1, false) ∨
    processJob fail st j =
      (applyTagsP (upsertEntryP st j).1 (upsertEntryP st j).2 j.Tags, true) := by
  unfold processJob
  rcases insertBookmark_cases fail st j with h | h
  · rw [h]
    exact Or.inl rfl
  · rcases hup : upsertEntryP st j with ⟨st1, bid⟩
    rw [hup] at h
    rw [h]
    show (match insertTags fail st1 bid j.Tags with
          | none => (st1, false)
          | some st2 => (st2, true)) = (st, false) ∨
      (match insertTags fail st1 bid j.Tags with
          | none => (st1, false)
          | some st2 => (st2, true)) = ((st1, bid).1, false) ∨
      (match insertTags fail st1 bid j.Tags with
          | none => (st1, false)
          | some st2 => (st2, true)) = (applyTagsP (st1, bid).1 (st1, bid).2 j.Tags, true)
    rcases insertTags_cases fail st1 bid j.Tags with h2 | h2 <;> rw [h2]
    · exact Or.inr (Or.inl rfl)
    · exact Or.inr (Or.inr rfl)

theorem processJob_noFail (st : Store) (j : Job) :
    processJob noFail st j =
      (applyTagsP (upsertEntryP st j).1 (upsertEntryP st j).2 j.Tags, true) := by
  unfold processJob
  rcases hup : upsertEntryP st j with ⟨st1, bid⟩
  have hb := insertBookmark_noFail st j
  rw [hup] at hb
  rw [hb]
  show (match insertTags noFail st1 bid j.Tags with
        | none => (st1, false)
        | some st2 => (st2, true)) = (applyTagsP (st1, bid).1 (st1, bid).2 j.Tags, true)
  rw [insertTags_noFail st1 bid j.Tags]

theorem processJob_success_of (fail : Nat → Bool) (st : Store) (j : Job)
    (h : ∀ k, fail k = false) :
    processJob fail st j =
      (applyTagsP (upsertEntryP st j).1 (upsertEntryP st j).2 j.Tags, true) := by
  have hf : fail = noFail := funext fun k => h k
  rw [hf]
  exact processJob_noFail st j

theorem runJobs_length (fails : Nat → Nat → Bool) :
    ∀ (jobs : List Job) (st : Store) (i : Nat),
      (runJobs fails st i jobs).2.length = jobs.length := by
  intro jobs
  induction jobs with
  | nil => intro st i; rfl
  | cons j rest ih =>
    intro st i
    show ((processJob (fails i) st j).2 ::
        (runJobs fails (processJob (fails i) st j).1 (i + 1) rest).2).length =
      rest.length + 1
    rw [List.length_cons, ih]

theorem runJobs_get_true (fails : Nat → Nat → Bool) :
    ∀ (jobs : List Job) (st : Store) (i0 n : Nat), n < jobs.length →
      (∀ k, fails (i0 + n) k = false) →
      (runJobs fails st i0 jobs).2.getD n false = true := by
  intro jobs
  induction jobs with
  | nil => intro st i0 n hn _; simp at hn
  | cons j rest ih =>
    intro st i0 n hn hf
    have hshape : (runJobs fails st i0 (j :: rest)).2 =
        (processJob (fails i0) st j).2 ::
          (runJobs fails (processJob (fails i0) st j).1 (i0 + 1) rest).2 := rfl
    rcases n with _ | m
    · rw [hshape]
      rw [List.getD_cons_zero]
      have h0 : ∀ k, fails i0 k = false := by
        intro k
        have := hf k
        simpa using this
      rw [processJob_success_of (fails i0) st j h0]
    · rw [hshape]
      rw [List.getD_cons_succ]
      refine ih _ (i0 + 1) m ?_ ?_
      · simp only [List.length_cons] at hn; omega
      · intro k
        have := hf k
        rwa [show i0 + 1 + m = i0 + (m + 1) by omega]

theorem filter_true_false_length (outs : List Bool) :
    (outs.filter (fun b => b)).length + (outs.filter (fun b => !b)).length =
      outs.length := by
  induction outs with
  | nil => rfl
  | cons b rest ih =>
    rcases b with _ | _ <;> simp [List.filter_cons] <;> omega

/-! Claim theorems: transactions and the coordinator -/

/-- C2 counterexample: the candidate ⟨"u","t","",1,1,["x"]⟩ processed against
an empty store with a failure at statement position 6 (the tag insert inside
insertTags) reports an error, yet its entry insert is already persisted: the
claimed single atomic per-candidate transaction does not exist — the entry
insert committed in its own earlier transaction. -/
theorem C2_counterexample :
    (processJob (failAt 6) emptyStore exJob).2 = false ∧
    (processJob (failAt 6) emptyStore exJob).1 ≠ emptyStore ∧
    (processJob (failAt 6) emptyStore exJob).1.bookmarks =
      [⟨1, "u".data, "t".data, [], 1, 1⟩] := by
  refine ⟨by decide, by decide, by decide⟩

/-- C2 (amended): each candidate is processed in two separate transactions —
one committing exactly the entry upsert, a second committing exactly all of
the label and association inserts.  Each of the two is atomic: the outcome is
(i) nothing persisted (first transaction rolled back), (ii) only the entry
upsert persisted (second transaction rolled back — with an error reported),
or (iii) both effects persisted with success reported.  No transaction spans
more than one candidate: the run is a per-candidate fold. -/
theorem C2_two_transactions (fail : Nat → Bool) (st : Store) (j : Job) :
    (processJob fail st j = (st, false) ∨
     processJob fail st j = ((upsertEntryP st j).1, false) ∨
     processJob fail st j =
       (applyTagsP (upsertEntryP st j).1 (upsertEntryP st j).2 j.Tags, true)) ∧
    (∀ (fails : Nat → Nat → Bool) (i : Nat) (rest : List Job),
      runJobs fails st i (j :: rest) =
        ((runJobs fails (processJob (fails i) st j).1 (i + 1) rest).1,
         (processJob (fails i) st j).2 ::
           (runJobs fails (processJob (fails i) st j).1 (i + 1) rest).2)) :=
  ⟨processJob_cases fail st j, fun _ _ _ => rfl⟩

/-- C8: the coordinator drains the whole input (one reported outcome per
candidate), a candidate whose own statements all succeed is reported
successful no matter what happens to other candidates, and the reported
success count plus the number of reported failures accounts for every
candidate. -/
theorem C8_drain_report (fails : Nat → Nat → Bool) (st : Store)
    (jobs : List Job) :
    (runJobs fails st 0 jobs).2.length = jobs.length ∧
    (∀ n, n < jobs.length → (∀ k, fails n k = false) →
      (runJobs fails st 0 jobs).2.getD n false = true) ∧
    successCount ((runJobs fails st 0 jobs).2) +
        (((runJobs fails st 0 jobs).2).filter (fun b => !b)).length =
      jobs.length := by
  refine ⟨runJobs_length fails jobs st 0, ?_, ?_⟩
  · intro n hn hf
    exact runJobs_get_true fails jobs st 0 n hn (by simpa using hf)
  · rw [show successCount ((runJobs fails st 0 jobs).2) =
        (((runJobs fails st 0 jobs).2).filter (fun b => b)).length from rfl]
    rw [filter_true_false_length]
    exact runJobs_length fails jobs st 0

theorem C8_drain_report_witness :
    (runJobs noFails emptyStore 0 [exJob]).2.length = 1 ∧
    (runJobs noFails emptyStore 0 [exJob]).2.getD 0 false = true ∧
    successCount ((runJobs noFails emptyStore 0 [exJob]).2) +
        (((runJobs noFails emptyStore 0 [exJob]).2).filter (fun b => !b)).length = 1 :=
  ⟨(C8_drain_report noFails emptyStore [exJob]).1,
   (C8_drain_report noFails emptyStore [exJob]).2.1 0 (by decide) (fun _ => rfl),
   (C8_drain_report noFails emptyStore [exJob]).2.2⟩

/-! Store invariants under import -/

theorem applyTagsLoopP_tags_mem (bid : Nat) :
    ∀ (ts : List (List Char)) (tx : TagTx),
      ∀ p ∈ (applyTagsLoopP bid ts tx).tags, p ∈ tx.tags ∨ p.2 ∈ ts := by
  intro ts
  induction ts with
  | nil => intro tx p hp; exact Or.inl hp
  | cons t rest ih =>
    intro tx p hp
    rw [applyTagsLoopP] at hp
    by_cases ht : t = []
    · rw [if_pos ht] at hp
      rcases ih tx p hp with h | h
      · exact Or.inl h
      · exact Or.inr (List.mem_cons_of_mem _ h)
    · rw [if_neg ht] at hp
      rcases hl : lookupTagId tx.tags t with _ | tid
      · rw [hl] at hp
        rcases ih _ p hp with h | h
        · rw [(addLink_tags _ bid tx.nextTagId).1] at h
          rcases List.mem_append.mp h with h2 | h2
          · exact Or.inl h2
          · rw [List.mem_singleton] at h2
            subst h2
            exact Or.inr (List.mem_cons_self _ _)
        · exact Or.inr (List.mem_cons_of_mem _ h)
      · rw [hl] at hp
        rcases ih _ p hp with h | h
        · rw [(addLink_tags tx bid tid).1] at h
          exact Or.inl h
        · exact Or.inr (List.mem_cons_of_mem _ h)

theorem upsertEntryP_parts (st : Store) (j : Job) :
    (upsertEntryP st j).1.tags = st.tags ∧
    (upsertEntryP st j).1.links = st.links ∧
    (upsertEntryP st j).1.nextTagId = st.nextTagId := by
  unfold upsertEntryP
  rcases lookupUrl st j.URI with _ | r
  · exact ⟨rfl, rfl, rfl⟩
  · exact ⟨rfl, rfl, rfl⟩

theorem applyTagsP_bookmarks (st : Store) (bid : Nat) (tags : List (List Char)) :
    (applyTagsP st bid tags).bookmarks = st.bookmarks ∧
    (applyTagsP st bid tags).nextBookmarkId = st.nextBookmarkId := ⟨rfl, rfl⟩

theorem processJob_tags_mem (fail : Nat → Bool) (st : Store) (j : Job) :
    ∀ p ∈ (processJob fail st j).1.tags, p ∈ st.tags ∨ p.2 ∈ j.Tags := by
  intro p hp
  rcases processJob_cases fail st j with h | h | h <;> rw [h] at hp
  · exact Or.inl hp
  · rw [(upsertEntryP_parts st j).1] at hp
    exact Or.inl hp
  · have hp2 : p ∈ (applyTagsLoopP (upsertEntryP st j).2 j.Tags
        ⟨(upsertEntryP st j).1.tags, (upsertEntryP st j).1.links,
         (upsertEntryP st j).1.nextTagId⟩).tags := hp
    rcases applyTagsLoopP_tags_mem _ j.Tags _ p hp2 with h2 | h2
    · rw [(upsertEntryP_parts st j).1] at h2
      exact Or.inl h2
    · exact Or.inr h2

theorem runJobs_tags_mem (fails : Nat → Nat → Bool) :
    ∀ (jobs : List Job) (st : Store) (i : Nat),
      ∀ p ∈ (runJobs fails st i jobs).1.tags,
        p ∈ st.tags ∨ ∃ j ∈ jobs, p.2 ∈ j.Tags := by
  intro jobs
  induction jobs with
  | nil => intro st i p hp; exact Or.inl hp
  | cons j rest ih =>
    intro st i p hp
    have hp2 : p ∈ (runJobs fails (processJob (fails i) st j).1 (i + 1) rest).1.tags := hp
    rcases ih _ (i + 1) p hp2 with h | ⟨j2, hj2, hmem⟩
    · rcases processJob_tags_mem (fails i) st j p h with h2 | h2
      · exact Or.inl h2
      · exact Or.inr ⟨j, List.mem_cons_self _ _, h2⟩
    · exact Or.inr ⟨j2, List.mem_cons_of_mem _ hj2, hmem⟩

theorem parseBlock_tags_good (now : Int) (b : List Char) (j : Job)
    (hj : parseBlock now b = some j) :
    ∀ t ∈ j.Tags, trimSpace t = t ∧ t ≠ [] := by
  intro t ht
  rcases hfa : findAnchor (trimSpace b) with _ | ⟨attrStr, inner0⟩
  · rw [parseBlock_none_of_no_anchor now b hfa] at hj
    cases hj
  · obtain ⟨-, -, -, -, -, htags⟩ := parseBlock_fields now b attrStr inner0 j hfa hj
    rw [htags] at ht
    exact extractTags_trimmed attrStr t ht

/-! Entry count and address presence -/

theorem lookupUrl_present (st : Store) (u : List Char) :
    urlPresent st u ↔ ∃ r, lookupUrl st u = some r := by
  unfold urlPresent lookupUrl
  constructor
  · rintro ⟨b, hb, rfl⟩
    have : (st.bookmarks.find? (fun x => x.url == b.url)).isSome := by
      rw [List.find?_isSome]
      exact ⟨b, hb, by simp⟩
    rcases hfind : st.bookmarks.find? (fun x => x.url == b.url) with _ | r
    · rw [hfind] at this; cases this
    · exact ⟨r, hfind⟩
  · rintro ⟨r, hr⟩
    have hmem := List.mem_of_find?_eq_some hr
    have hpred := List.find?_some hr
    rw [beq_iff_eq] at hpred
    exact ⟨r, hmem, hpred⟩

theorem upsertEntryP_present (st : Store) (j : Job) :
    urlPresent (upsertEntryP st j).1 j.URI := by
  unfold upsertEntryP
  rcases hu : lookupUrl st j.URI with _ | r
  · refine ⟨⟨st.nextBookmarkId, j.URI, j.Title, j.Note, j.CreatedAt, j.UpdatedAt⟩, ?_, rfl⟩
    simp
  · have hmem := List.mem_of_find?_eq_some hu
    have hpred := List.find?_some hu
    rw [beq_iff_eq] at hpred
    exact ⟨r, hmem, hpred⟩

theorem upsertEntryP_count_of_present (st : Store) (j : Job)
    (h : urlPresent st j.URI) : (upsertEntryP st j).1 = st := by
  obtain ⟨r, hr⟩ := (lookupUrl_present st j.URI).mp h
  unfold upsertEntryP
  rw [hr]

theorem processJob_bookmarks_ext (fail : Nat → Bool) (st : Store) (j : Job) :
    ∃ ext, (processJob fail st j).1.bookmarks = st.bookmarks ++ ext := by
  rcases processJob_cases fail st j with h | h | h <;> rw [h]
  · exact ⟨[], by simp⟩
  · unfold upsertEntryP
    rcases lookupUrl st j.URI with _ | r
    · exact ⟨_, rfl⟩
    · exact ⟨[], by simp⟩
  · rw [(applyTagsP_bookmarks _ _ _).1]
    unfold upsertEntryP
    rcases lookupUrl st j.URI with _ | r
    · exact ⟨_, rfl⟩
    · exact ⟨[], by simp⟩

theorem urlPresent_mono (st : Store) (ext : List BookmarkRow) (u : List Char)
    (h : urlPresent st u) :
    urlPresent ⟨st.bookmarks ++ ext, st.tags, st.links, st.nextBookmarkId,
      st.nextTagId⟩ u := by
  obtain ⟨b, hb, hu⟩ := h
  exact ⟨b, List.mem_append_left _ hb, hu⟩

theorem processJob_present_mono (fail : Nat → Bool) (st : Store) (j : Job)
    (u : List Char) (h : urlPresent st u) :
    urlPresent (processJob fail st j).1 u := by
  obtain ⟨ext, hext⟩ := processJob_bookmarks_ext fail st j
  obtain ⟨b, hb, hu⟩ := h
  exact ⟨b, by rw [hext]; exact List.mem_append_left _ hb, hu⟩

theorem processJob_noFail_present (st : Store) (j : Job) :
    urlPresent (processJob noFail st j).1 j.URI := by
  rw [processJob_noFail st j]
  show urlPresent (applyTagsP (upsertEntryP st j).1 (upsertEntryP st j).2 j.Tags) j.URI
  have h := upsertEntryP_present st j
  obtain ⟨b, hb, hu⟩ := h
  exact ⟨b, by rw [(applyTagsP_bookmarks _ _ _).1]; exact hb, hu⟩

theorem processJob_count_of_present (fail : Nat → Bool) (st : Store) (j : Job)
    (h : urlPresent st j.URI) :
    (processJob fail st j).1.bookmarks.length = st.bookmarks.length := by
  rcases processJob_cases fail st j with hc | hc | hc
  · rw [hc]
  · rw [hc]
    show (upsertEntryP st j).1.bookmarks.length = st.bookmarks.length
    rw [upsertEntryP_count_of_present st j h]
  · rw [hc]
    show (applyTagsP (upsertEntryP st j).1 (upsertEntryP st j).2
      j.Tags).bookmarks.length = st.bookmarks.length
    rw [(applyTagsP_bookmarks _ _ _).1, upsertEntryP_count_of_present st j h]

theorem runJobs_all_present (fails : Nat → Nat → Bool) :
    ∀ (jobs : List Job) (st : Store) (i : Nat) (u : List Char),
      urlPresent st u → urlPresent (runJobs fails st i jobs).1 u := by
  intro jobs
  induction jobs with
  | nil => intro st i u h; exact h
  | cons j rest ih =>
    intro st i u h
    exact ih _ (i + 1) u (processJob_present_mono (fails i) st j u h)

theorem runJobs_noFails_present :
    ∀ (jobs : List Job) (st : Store) (i : Nat),
      ∀ j ∈ jobs, urlPresent (runJobs noFails st i jobs).1 j.URI := by
  intro jobs
  induction jobs with
  | nil => intro st i j hj; cases hj
  | cons j0 rest ih =>
    intro st i j hj
    rcases List.mem_cons.mp hj with rfl | hj2
    · have h0 : urlPresent (processJob (noFails i) st j).1 j.URI :=
        processJob_noFail_present st j
      exact runJobs_all_present noFails rest _ (i + 1) j.URI h0
    · exact ih _ (i + 1) j hj2

theorem runJobs_count_of_present (fails : Nat → Nat → Bool) :
    ∀ (jobs : List Job) (st : Store) (i : Nat),
      (∀ j ∈ jobs, urlPresent st j.URI) →
      (runJobs fails st i jobs).1.bookmarks.length = st.bookmarks.length := by
  intro jobs
  induction jobs with
  | nil => intro st i _; rfl
  | cons j rest ih =>
    intro st i h
    have h0 : urlPresent st j.URI := h j (List.mem_cons_self _ _)
    have hrest : ∀ j2 ∈ rest, urlPresent (processJob (fails i) st j).1 j2.URI :=
      fun j2 hj2 =>
        processJob_present_mono (fails i) st j j2.URI (h j2 (List.mem_cons_of_mem _ hj2))
    have := ih (processJob (fails i) st j).1 (i + 1) hrest
    rw [show (runJobs fails st i (j :: rest)).1 =
        (runJobs fails (processJob (fails i) st j).1 (i + 1) rest).1 from rfl]
    rw [this, processJob_count_of_present (fails i) st j h0]

/-! Links stay duplicate-free -/

theorem applyTagsLoopP_links_nodup (bid : Nat) :
    ∀ (ts : List (List Char)) (tx : TagTx),
      tx.links.Nodup → (applyTagsLoopP bid ts tx).links.Nodup := by
  intro ts
  induction ts with
  | nil => intro tx h; exact h
  | cons t rest ih =>
    intro tx h
    rw [applyTagsLoopP]
    by_cases ht : t = []
    · rw [if_pos ht]
      exact ih tx h
    · rw [if_neg ht]
      rcases lookupTagId tx.tags t with _ | tid
      · exact ih _ (addLink_links_nodup _ bid tx.nextTagId (by exact h))
      · exact ih _ (addLink_links_nodup tx bid tid h)

theorem processJob_links_nodup (fail : Nat → Bool) (st : Store) (j : Job)
    (h : st.links.Nodup) : (processJob fail st j).1.links.Nodup := by
  rcases processJob_cases fail st j with hc | hc | hc <;> rw [hc]
  · exact h
  · rw [(upsertEntryP_parts st j).2.1]
    exact h
  · show (applyTagsLoopP (upsertEntryP st j).2 j.Tags
      ⟨(upsertEntryP st j).1.tags, (upsertEntryP st j).1.links,
       (upsertEntryP st j).1.nextTagId⟩).links.Nodup
    apply applyTagsLoopP_links_nodup
    show (upsertEntryP st j).1.links.Nodup
    rw [(upsertEntryP_parts st j).2.1]
    exact h

theorem runJobs_links_nodup (fails : Nat → Nat → Bool) :
    ∀ (jobs : List Job) (st : Store) (i : Nat),
      st.links.Nodup → (runJobs fails st i jobs).1.links.Nodup := by
  intro jobs
  induction jobs with
  | nil => intro st i h; exact h
  | cons j rest ih =>
    intro st i h
    exact ih _ (i + 1) (processJob_links_nodup (fails i) st j h)

/-! URI stream does not depend on the clock -/

theorem parseBlock_URI_now (now1 now2 : Int) (b : List Char) :
    (parseBlock now1 b).map (fun j => j.URI) =
      (parseBlock now2 b).map (fun j => j.URI) := by
  rw [parseBlock_eq, parseBlock_eq]
  split
  · rfl
  · split
    · rfl
    · rfl

theorem parseBlocks_URI_now (now1 now2 : Int) :
    ∀ blocks : List (List Char),
      (parseBlocks now1 blocks).map (fun j => j.URI) =
        (parseBlocks now2 blocks).map (fun j => j.URI) := by
  intro blocks
  induction blocks with
  | nil => rfl
  | cons b rest ih =>
    unfold parseBlocks at ih ⊢
    rw [List.filterMap_cons, List.filterMap_cons]
    have h := parseBlock_URI_now now1 now2 b
    rcases h1 : parseBlock now1 b with _ | j1 <;>
      rcases h2 : parseBlock now2 b with _ | j2 <;> rw [h1, h2] at h
    · exact ih
    · cases h
    · cases h
    · have h' : j1.URI = j2.URI := Option.some.inj h
      show List.map (fun j => j.URI) (j1 :: List.filterMap (parseBlock now1) rest) =
        List.map (fun j => j.URI) (j2 :: List.filterMap (parseBlock now2) rest)
      rw [List.map_cons, List.map_cons, h', ih]

/-- C7: the label list of every candidate is obtained by splitting the TAGS
attribute value on commas, trimming each piece of surrounding whitespace, and
discarding pieces that are empty after trimming; hence every parsed label is
trim-invariant and non-empty, and an import run (under any failure oracle)
never stores a label with empty or whitespace-only text. -/
theorem C7_label_hygiene :
    (∀ attrStr m, findTags attrStr = some m → m ≠ [] →
      extractTags attrStr =
        ((splitOnComma m).map trimSpace).filter (fun t => !t.isEmpty)) ∧
    (∀ attrStr, ∀ t ∈ extractTags attrStr, trimSpace t = t ∧ t ≠ []) ∧
    (∀ (fails : Nat → Nat → Bool) (now : Int) (st : Store) (content : List Char),
      (∀ p ∈ st.tags, trimSpace p.2 = p.2 ∧ p.2 ≠ []) →
      ∀ p ∈ ((importContent fails now st content).1).tags,
        trimSpace p.2 = p.2 ∧ p.2 ≠ []) := by
  refine ⟨fun a m h hm => extractTags_of_found a m h hm, extractTags_trimmed, ?_⟩
  intro fails now st content hst p hp
  unfold importContent at hp
  rcases runJobs_tags_mem fails _ st 0 p hp with h | ⟨j, hj, hmem⟩
  · exact hst p h
  · unfold parseBlocks at hj
    obtain ⟨b, _, hjb⟩ := List.mem_filterMap.mp hj
    exact parseBlock_tags_good now b j hjb p.2 hmem

theorem C7_label_hygiene_witness :
    trimSpace ("a".data) = "a".data ∧ ("a".data : List Char) ≠ [] :=
  C7_label_hygiene.2.2 noFails 42 emptyStore
    ("<A HREF=\"u\" TAGS=\" a ,  \">t</A>".data) (by decide)
    (1, "a".data) (by decide)

/-- C3: importing the same document twice (with any clock readings and no
environment failures) leaves the entry count after the second import equal to
the count after the first — a re-imported address never creates a second
entry row — and, under any failure oracle, an import never duplicates an
(entry, label) association: the association table stays duplicate-free. -/
theorem C3_idempotent_import (now1 now2 : Int) (st : Store) (content : List Char) :
    ((importContent noFails now2
        ((importContent noFails now1 st content).1) content).1).bookmarks.length =
      ((importContent noFails now1 st content).1).bookmarks.length ∧
    (∀ (fails : Nat → Nat → Bool) (now : Int) (st0 : Store),
      st0.links.Nodup → ((importContent fails now st0 content).1).links.Nodup) := by
  constructor
  · unfold importContent
    apply runJobs_count_of_present
    intro j2 hj2mem
    have hmap := parseBlocks_URI_now now2 now1 (splitOnSub dtSep content)
    have hin : j2.URI ∈ (parseBlocks now1 (splitOnSub dtSep content)).map
        (fun j => j.URI) := by
      rw [← hmap]
      exact List.mem_map_of_mem _ hj2mem
    obtain ⟨j1, hj1mem, hEq⟩ := List.mem_map.mp hin
    have hpres := runJobs_noFails_present
      (parseBlocks now1 (splitOnSub dtSep content)) st 0 j1 hj1mem
    rw [← hEq]
    exact hpres
  · intro fails now st0 h
    exact runJobs_links_nodup fails _ st0 0 h

theorem C3_idempotent_import_witness :
    ((importContent noFails 2 ((importContent noFails 1 emptyStore c4input).1)
        c4input).1).bookmarks.length =
      ((importContent noFails 1 emptyStore c4input).1).bookmarks.length ∧
    ((importContent noFails 1 emptyStore c4input).1).links.Nodup :=
  ⟨(C3_idempotent_import 1 2 emptyStore c4input).1,
   (C3_idempotent_import 1 2 emptyStore c4input).2 noFails 1 emptyStore (by decide)⟩

/-! Shape of the exported text -/

theorem exportEntry_shape (st : Store) (b : BookmarkRow) :
    exportEntry st b = dtSep ++ bodyShape (exportAttr st b)
      (escapeString b.title) (escapeString b.note) := by
  have e1 : ("<DT><A ".data : List Char) = "<DT>".data ++ ['<', 'A', ' '] := rfl
  have e2 : (">".data : List Char) = ['>'] := rfl
  by_cases h : escapeString b.note = [] <;>
    simp [exportEntry, bodyShape, dtSep, h, e1, e2, List.append_assoc]

theorem exportAttr_shape (st : Store) (b : BookmarkRow) :
    exportAttr st b = attrShape (escapeString b.url) (intToDec b.createdAt)
      (intToDec b.updatedAt)
      (if escapeString (joinComma (tagsOf st b.id)) = [] then none
       else some (escapeString (joinComma (tagsOf st b.id)))) := by
  have e1 : ("HREF=\"".data : List Char) = "HREF=".data ++ [quoteC] := rfl
  have e2 : ("\" ADD_DATE=\"".data : List Char) =
    [quoteC, ' '] ++ "ADD_DATE=".data ++ [quoteC] := rfl
  have e3 : ("\" LAST_MODIFIED=\"".data : List Char) =
    [quoteC, ' '] ++ "LAST_MODIFIED=".data ++ [quoteC] := rfl
  have e4 : ("\"".data : List Char) = [quoteC] := rfl
  have e5 : (" TAGS=\"".data : List Char) = [' '] ++ "TAGS=".data ++ [quoteC] := rfl
  by_cases h : escapeString (joinComma (tagsOf st b.id)) = [] <;>
    simp [exportAttr, attrShape, h, e1, e2, e3, e4, e5, List.append_assoc] <;> rfl

/-! What html.EscapeString can produce -/

theorem escapeChar_mem (c d : Char) (hd : d ∈ escapeChar c) :
    (d = c ∧ isEscapable c = false) ∨
      d ∈ ['&', 'a', 'm', 'p', ';', 'l', 't', 'g', '#', '3', '9', '4'] := by
  unfold escapeChar at hd
  split at hd
  · right; fin_cases hd <;> decide
  · split at hd
    · right; fin_cases hd <;> decide
    · split at hd
      · right; fin_cases hd <;> decide
      · split at hd
        · right; fin_cases hd <;> decide
        · split at hd
          · right; fin_cases hd <;> decide
          · rw [List.mem_singleton] at hd
            subst hd
            left
            refine ⟨rfl, ?_⟩
            unfold isEscapable
            rename_i h1 h2 h3 h4 h5
            simp only [Bool.not_eq_true] at h1 h2 h3 h4 h5
            rw [h1, h2, h3, h4, h5]
            rfl

theorem escapeString_mem : ∀ (s : List Char) (d : Char), d ∈ escapeString s →
    (d ∈ s ∧ isEscapable d = false) ∨
      d ∈ ['&', 'a', 'm', 'p', ';', 'l', 't', 'g', '#', '3', '9', '4'] := by
  intro s
  induction s with
  | nil => intro d hd; cases hd
  | cons c t ih =>
    intro d hd
    rcases List.mem_append.mp hd with h | h
    · rcases escapeChar_mem c d h with ⟨rfl, hesc⟩ | h2
      · exact Or.inl ⟨List.mem_cons_self _ _, hesc⟩
      · exact Or.inr h2
    · rcases ih d h with ⟨hmem, hesc⟩ | h2
      · exact Or.inl ⟨List.mem_cons_of_mem _ hmem, hesc⟩
      · exact Or.inr h2

theorem esc_no_lt (s : List Char) : '<' ∉ escapeString s := by
  intro h
  rcases escapeString_mem s '<' h with ⟨_, hesc⟩ | h2
  · cases hesc
  · exact absurd h2 (by decide)

theorem esc_no_gt (s : List Char) : '>' ∉ escapeString s := by
  intro h
  rcases escapeString_mem s '>' h with ⟨_, hesc⟩ | h2
  · cases hesc
  · exact absurd h2 (by decide)

theorem esc_no_quote (s : List Char) : quoteC ∉ escapeString s := by
  intro h
  rcases escapeString_mem s quoteC h with ⟨_, hesc⟩ | h2
  · cases hesc
  · exact absurd h2 (by decide)

theorem esc_no_nl (s : List Char) (hs : '\n' ∉ s) : '\n' ∉ escapeString s := by
  intro h
  rcases escapeString_mem s '\n' h with ⟨hmem, _⟩ | h2
  · exact hs hmem
  · exact absurd h2 (by decide)

theorem escapeChar_id (c : Char) (h : isEscapable c = false) : escapeChar c = [c] := by
  unfold isEscapable at h
  simp only [Bool.or_eq_false_iff] at h
  unfold escapeChar
  rw [if_neg (by simp [h.1.1.1.1]), if_neg (by simp [h.1.1.1.2]),
    if_neg (by simp [h.1.1.2]), if_neg (by simp [h.1.2]), if_neg (by simp [h.2])]

theorem escapeString_escFree (s : List Char) (h : escFree s) : escapeString s = s := by
  induction s with
  | nil => rfl
  | cons c t ih =>
    show escapeChar c ++ escapeString t = c :: t
    rw [escapeChar_id c (h c (List.mem_cons_self _ _)),
      ih (fun d hd => h d (List.mem_cons_of_mem _ hd))]
    rfl

theorem escapeString_append (a b : List Char) :
    escapeString (a ++ b) = escapeString a ++ escapeString b := by
  induction a with
  | nil => rfl
  | cons c t ih =>
    show escapeChar c ++ escapeString (t ++ b) = (escapeChar c ++ escapeString t) ++ escapeString b
    rw [ih, List.append_assoc]

theorem escapeChar_len (c : Char) :
    1 ≤ (escapeChar c).length ∧
      (isEscapable c = true → 4 ≤ (escapeChar c).length) := by
  unfold escapeChar isEscapable
  by_cases h1 : c == '&'
  · simp [h1]
  · by_cases h2 : c == aposC
    · simp [h1, h2]
    · by_cases h3 : c == '<'
      · simp [h1, h2, h3]
      · by_cases h4 : c == '>'
        · simp [h1, h2, h3, h4]
        · by_cases h5 : c == quoteC
          · simp [h1, h2, h3, h4, h5]
          · simp [h1, h2, h3, h4, h5]

theorem escapeString_len_ge (s : List Char) :
    s.length ≤ (escapeString s).length := by
  induction s with
  | nil => exact Nat.le_refl 0
  | cons c t ih =>
    show (c :: t).length ≤ (escapeChar c ++ escapeString t).length
    rw [List.length_cons, List.length_append]
    have := (escapeChar_len c).1
    omega

theorem escapeString_len_gt (s : List Char) (c : Char) (hc : c ∈ s)
    (hesc : isEscapable c = true) : s.length < (escapeString s).length := by
  induction s with
  | nil => cases hc
  | cons d t ih =>
    show (d :: t).length < (escapeChar d ++ escapeString t).length
    rw [List.length_cons, List.length_append]
    rcases List.mem_cons.mp hc with rfl | hmem
    · have h4 := (escapeChar_len c).2 hesc
      have := escapeString_len_ge t
      omega
    · have := ih hmem
      have h1 := (escapeChar_len d).1
      omega

theorem escapeString_ne (s : List Char) (c : Char) (hc : c ∈ s)
    (hesc : isEscapable c = true) : escapeString s ≠ s := by
  intro h
  have := escapeString_len_gt s c hc hesc
  rw [h] at this
  omega

/-! html.EscapeString preserves trimmedness -/

theorem trimLeft_length_le (s : List Char) : (trimLeft s).length ≤ s.length := by
  obtain ⟨w, hw, _⟩ := dropWhile_append_exists isGoSpace s
  conv_rhs => rw [hw]
  rw [List.length_append]
  show (s.dropWhile isGoSpace).length ≤ w.length + (s.dropWhile isGoSpace).length
  omega

theorem trimRight_length_le (s : List Char) : (trimRight s).length ≤ s.length := by
  obtain ⟨w, hw, _⟩ := trimRight_is_prefixed s
  conv_rhs => rw [hw]
  rw [List.length_append]
  omega

theorem trimLeft_fix_cons (c : Char) (t : List Char)
    (h : trimLeft (c :: t) = c :: t) : isGoSpace c = false := by
  by_cases hc : isGoSpace c = true
  · exfalso
    have heq : trimLeft (c :: t) = trimLeft t := by
      unfold trimLeft
      rw [List.dropWhile_cons, if_pos hc]
    rw [heq] at h
    have hlen : (trimLeft t).length ≤ t.length := trimLeft_length_le t
    rw [h, List.length_cons] at hlen
    omega
  · exact Bool.not_eq_true _ |>.mp hc

theorem trimRight_fix_concat (u : List Char) (c : Char)
    (h : trimRight (u ++ [c]) = u ++ [c]) : isGoSpace c = false := by
  by_cases hc : isGoSpace c = true
  · exfalso
    rw [trimRight_append_space u hc] at h
    have hlen : (trimRight u).length ≤ u.length := trimRight_length_le u
    rw [h, List.length_append, List.length_singleton] at hlen
    omega
  · exact Bool.not_eq_true _ |>.mp hc

theorem trimSpace_fix_split (s : List Char) (h : trimSpace s = s) :
    trimLeft s = s ∧ trimRight s = s := by
  obtain ⟨w1, hw1, _⟩ := dropWhile_append_exists isGoSpace s
  have hts : trimRight (trimLeft s) = s := h
  have l1 : (trimLeft s).length ≤ s.length := trimLeft_length_le s
  have l2 : (trimRight (trimLeft s)).length ≤ (trimLeft s).length :=
    trimRight_length_le (trimLeft s)
  rw [hts] at l2
  have lene : (trimLeft s).length = s.length := Nat.le_antisymm l1 l2
  have hw1nil : w1 = [] := by
    have hsum : s.length = w1.length + (trimLeft s).length := by
      conv_lhs => rw [hw1]
      rw [List.length_append]
      rfl
    rw [lene] at hsum
    have : w1.length = 0 := by omega
    exact List.eq_nil_of_length_eq_zero this
  have hleft : trimLeft s = s := by
    conv_rhs => rw [hw1, hw1nil]
    rfl
  refine ⟨hleft, ?_⟩
  conv_lhs => rw [← hleft]
  exact hts

theorem escapeChar_head (c : Char) :
    ∃ d ds, escapeChar c = d :: ds ∧ (isGoSpace c = false → isGoSpace d = false) := by
  unfold escapeChar
  by_cases h1 : c == '&'
  · exact ⟨'&', _, by rw [if_pos h1], fun _ => by decide⟩
  · rw [if_neg h1]
    by_cases h2 : c == aposC
    · exact ⟨'&', _, by rw [if_pos h2], fun _ => by decide⟩
    · rw [if_neg h2]
      by_cases h3 : c == '<'
      · exact ⟨'&', _, by rw [if_pos h3], fun _ => by decide⟩
      · rw [if_neg h3]
        by_cases h4 : c == '>'
        · exact ⟨'&', _, by rw [if_pos h4], fun _ => by decide⟩
        · rw [if_neg h4]
          by_cases h5 : c == quoteC
          · exact ⟨'&', _, by rw [if_pos h5], fun _ => by decide⟩
          · rw [if_neg h5]
            exact ⟨c, [], rfl, fun h => h⟩

theorem escapeChar_last (c : Char) :
    ∃ ds d, escapeChar c = ds ++ [d] ∧ (isGoSpace c = false → isGoSpace d = false) := by
  unfold escapeChar
  by_cases h1 : c == '&'
  · exact ⟨"&amp".data, ';', by rw [if_pos h1]; decide, fun _ => by decide⟩
  · rw [if_neg h1]
    by_cases h2 : c == aposC
    · exact ⟨"&#39".data, ';', by rw [if_pos h2]; decide, fun _ => by decide⟩
    · rw [if_neg h2]
      by_cases h3 : c == '<'
      · exact ⟨"&lt".data, ';', by rw [if_pos h3]; decide, fun _ => by decide⟩
      · rw [if_neg h3]
        by_cases h4 : c == '>'
        · exact ⟨"&gt".data, ';', by rw [if_pos h4]; decide, fun _ => by decide⟩
        · rw [if_neg h4]
          by_cases h5 : c == quoteC
          · exact ⟨"&#34".data, ';', by rw [if_pos h5]; decide, fun _ => by decide⟩
          · rw [if_neg h5]
            exact ⟨[], c, rfl, fun h => h⟩

theorem trimLeft_fix_escape (s : List Char) (h : trimLeft s = s) :
    trimLeft (escapeString s) = escapeString s := by
  cases s with
  | nil => rfl
  | cons c t =>
    have hc := trimLeft_fix_cons c t h
    obtain ⟨d, ds, hd, hdws⟩ := escapeChar_head c
    show trimLeft (escapeChar c ++ escapeString t) = escapeChar c ++ escapeString t
    rw [hd, List.cons_append]
    exact trimLeft_cons_false _ (hdws hc)

theorem trimRight_fix_escape (s : List Char) (h : trimRight s = s) :
    trimRight (escapeString s) = escapeString s := by
  rcases List.eq_nil_or_concat s with rfl | ⟨u, c, rfl⟩
  · rfl
  · rw [List.concat_eq_append] at h ⊢
    have hc := trimRight_fix_concat u c h
    obtain ⟨ds, d, hd, hdws⟩ := escapeChar_last c
    have h1 : escapeString [c] = escapeChar c := by
      show escapeChar c ++ [] = escapeChar c
      rw [List.append_nil]
    rw [escapeString_append, h1, hd]
    rw [show escapeString u ++ (ds ++ [d]) = (escapeString u ++ ds) ++ [d] by
      rw [List.append_assoc]]
    exact trimRight_append_false _ (hdws hc)

theorem trimSpace_fix_escape (s : List Char) (h : trimSpace s = s) :
    trimSpace (escapeString s) = escapeString s := by
  obtain ⟨hl, hr⟩ := trimSpace_fix_split s h
  show trimRight (trimLeft (escapeString s)) = escapeString s
  rw [trimLeft_fix_escape s hl, trimRight_fix_escape s hr]

end Bmark
